import Mathlib

/-!
# sqlmigr: naming, ordering and traversal of SQL migration files

A shallow embedding of `migrator.go`.  Every function of the package is a Lean
function of the same name.  What the package takes from Go's standard library
is modelled in the first part of the file:

* strings are lists of characters (`Str`), with `filepath.Ext`, `filepath.Join`
  and `strings.Split` written out;
* `time.Time` is an instant in UTC; `time.Parse` and `Time.Format` are passed
  to the package's functions as a `TimeLib`, and `goTime` is the instance that
  interprets the layout the package ships as its default;
* `sort.Sort` is the insertion sort the library runs on short slices;
* the file system is a finite map from cleaned paths to nodes.
-/

namespace Sqlmigr

/-! ## Strings and paths -/

/-- Go strings and byte slices, as lists of characters; for ASCII text the
characters are the bytes. -/
abbrev Str := List Char

/-- Lexicographic comparison of two strings, the order of Go's `<` on strings. -/
def strLess : Str → Str → Bool
  | [], [] => false
  | [], _ :: _ => true
  | _ :: _, [] => false
  | a :: as, b :: bs => if a.toNat < b.toNat then true else if b.toNat < a.toNat then false else strLess as bs

/-- The backward scan of `filepath.Ext`: `rev` is the part of the path not yet
visited, last character first, and `seen` the characters already passed. -/
def extScan : Str → Str → Str
  | [], _ => []
  | c :: rev, seen =>
    if c = '/' then []
    else if c = '.' then c :: seen
    else extScan rev (c :: seen)

/-- The function `filepath.Ext`: the suffix beginning at the final dot of the
final element of the path, or the empty string. -/
def filepathExt (path : Str) : Str := extScan path.reverse []

/-- The loop of `strings.Split` for a non-empty separator: `skip` counts the
characters of a matched separator still to be passed over, `cur` is the piece
being collected, last character first. -/
def splitLoop (sep : Str) : Str → Nat → Str → List Str
  | [], _, cur => [cur.reverse]
  | _ :: cs, skip + 1, cur => splitLoop sep cs skip cur
  | c :: cs, 0, cur =>
    if sep.isPrefixOf (c :: cs) then cur.reverse :: splitLoop sep cs (sep.length - 1) []
    else splitLoop sep cs 0 (c :: cur)

/-- The function `strings.Split`: all the pieces of `s` between the
non-overlapping occurrences of `sep`; with an empty `sep`, the characters of `s`. -/
def stringsSplit (s sep : Str) : List Str :=
  if sep = [] then s.map (fun c => [c]) else splitLoop sep s 0 []

/-- The pieces of a path between slashes. -/
def pathElems : Str → Str → List Str
  | [], cur => [cur.reverse]
  | c :: cs, cur => if c = '/' then cur.reverse :: pathElems cs [] else pathElems cs (c :: cur)

/-- One element of a path in `filepath.Clean`; `out` is the cleaned path so
far, last element first. -/
def cleanStep (rooted : Bool) (out : List Str) (e : Str) : List Str :=
  if e = [] ∨ e = ['.'] then out
  else if e = ['.', '.'] then
    match out with
    | top :: below => if top = ['.', '.'] then e :: out else below
    | [] => if rooted then [] else [e]
  else e :: out

/-- The function `filepath.Clean` for slash-separated paths. -/
def filepathClean (path : Str) : Str :=
  if path = [] then ['.']
  else
    let rooted := path.head? = some '/'
    let out := ((pathElems path []).foldl (cleanStep rooted) []).reverse
    let s := (if rooted then ['/'] else []) ++ List.intercalate ['/'] out
    if s = [] then ['.'] else s

/-- The function `filepath.Join`: the elements from the first non-empty one on,
joined by slashes and cleaned; the empty string when all are empty. -/
def filepathJoin (elem : List Str) : Str :=
  match elem.dropWhile (fun e => e = []) with
  | [] => []
  | es => filepathClean (List.intercalate ['/'] es)

/-! ## Time -/

/-- A `time.Time` in UTC: the nanoseconds elapsed since 0001-01-01 00:00:00 UTC,
the instant of the zero value `time.Time{}`. -/
structure Time where
  ns : Int
deriving DecidableEq, Repr

namespace Time

/-- The zero value `time.Time{}`. -/
def zero : Time := ⟨0⟩

/-- The method `Time.Before`. -/
def Before (t u : Time) : Bool := decide (t.ns < u.ns)

/-- The method `Time.After`. -/
def After (t u : Time) : Bool := decide (u.ns < t.ns)

/-- The method `Time.Equal`. -/
def Equal (t u : Time) : Bool := decide (t.ns = u.ns)

end Time

/-- The two functions of package `time` that read and write text:
`Parse layout value` (`none` for a parse error) and `Format t layout`. -/
structure TimeLib where
  Parse : Str → Str → Option Time
  Format : Time → Str → Str

def isDigit (c : Char) : Bool := decide ('0' ≤ c ∧ c ≤ '9')

def digitVal (c : Char) : Nat := c.toNat - 48

/-- Decimal value of a string of digits. -/
def atoiDigits (s : Str) : Nat := s.foldl (fun n c => n * 10 + digitVal c) 0

/-- The helper `getnum` of `time.Parse`: a number of one or two digits, of
exactly two when `fixed`. -/
def getnum (s : Str) ( fixed : Bool) : Option (Nat × Str) :=
  match s with
  | [] => none
  | c0 :: rest =>
    if !isDigit c0 then none
    else
      match rest with
      | [] => if fixed then none else some (digitVal c0, rest)
      | c1 :: rest1 =>
        if isDigit c1 then some (digitVal c0 * 10 + digitVal c1, rest1)
        else if fixed then none
        else some (digitVal c0, rest)

/-- The four-digit year of `time.Parse` (layout element `2006`). -/
def getLongYear (value : Str) : Option (Nat × Str) :=
  match value with
  | a :: b :: c :: d :: rest =>
    if isDigit a && isDigit b && isDigit c && isDigit d then some (atoiDigits [a, b, c, d], rest)
    else none
  | _ => none

def commaOrPeriod (c : Char) : Bool := decide (c = '.' ∨ c = ',')

/-- A fractional second in the input that the layout does not mention is read
by `time.Parse` after the seconds: the nanoseconds (nine digits are kept) and
the rest of the input. -/
def getFraction (value : Str) : Nat × Str :=
  match value with
  | p :: d :: rest =>
    if commaOrPeriod p && isDigit d then
      let digits := ((d :: rest).takeWhile isDigit).take 9
      (atoiDigits digits * 10 ^ (9 - digits.length), (d :: rest).dropWhile isDigit)
    else (0, value)
  | _ => (0, value)

def isLeap (year : Int) : Bool := decide (year % 4 = 0 ∧ (year % 100 ≠ 0 ∨ year % 400 = 0))

/-- The table `daysBefore` of package `time`: days of a non-leap year before
each month, and the length of the year. -/
def daysBefore : List Nat := [0, 31, 59, 90, 120, 151, 181, 212, 243, 273, 304, 334, 365]

/-- The function `daysIn`. -/
def daysIn (month : Nat) (year : Int) : Nat :=
  if month = 2 ∧ isLeap year then 29
  else daysBefore.getD month 0 - daysBefore.getD (month - 1) 0

/-- Days from 0001-01-01 to the first day of `year`. -/
def daysToYear (year : Int) : Int :=
  let y := year - 1
  365 * y + y / 4 - y / 100 + y / 400

/-- The function `time.Date` in UTC, for fields that are in range (which is how
`time.Parse` calls it). -/
def dateUTC (year : Int) (month day hour min sec nsec : Nat) : Time :=
  let d : Int := daysToYear year + (daysBefore.getD (month - 1) 0 : Nat)
    + (if isLeap year ∧ 3 ≤ month then 1 else 0) + ((day - 1 : Nat) : Int)
  ⟨(d * 86400 + ((hour * 3600 + min * 60 + sec : Nat) : Int)) * 1000000000 + (nsec : Int)⟩

/-- The call `time.Parse("20060102150405", value)`: year, month, day, hour,
minute and second in turn, an optional fractional second, no text left over,
and a day that exists in its month. -/
def parseDefaultLayout (value : Str) : Option Time :=
  match getLongYear value with
  | none => none
  | some (year, v1) =>
  match getnum v1 true with
  | none => none
  | some (month, v2) =>
  if month = 0 ∨ 12 < month then none else
  match getnum v2 true with
  | none => none
  | some (day, v3) =>
  match getnum v3 false with
  | none => none
  | some (hour, v4) =>
  if 24 ≤ hour then none else
  match getnum v4 true with
  | none => none
  | some (min, v5) =>
  if 60 ≤ min then none else
  match getnum v5 true with
  | none => none
  | some (sec, v6) =>
  if 60 ≤ sec then none else
  match getFraction v6 with
  | (nsec, v7) =>
  if v7 ≠ [] then none
  else if day < 1 ∨ daysIn month year < day then none
  else some (dateUTC year month day hour min sec nsec)

/-- The decimal digits of `n`, most significant first. -/
def utoa : Nat → Nat → Str → Str
  | 0, _, acc => acc
  | fuel + 1, n, acc =>
    let acc1 := Char.ofNat (48 + n % 10) :: acc
    if n / 10 = 0 then acc1 else utoa fuel (n / 10) acc1

/-- The helper `appendInt` of `Time.Format`: `x` in decimal, zero-padded to `width`. -/
def appendInt (x : Int) (width : Nat) : Str :=
  let ds := utoa (x.natAbs + 1) x.natAbs []
  (if x < 0 then ['-'] else []) ++ List.replicate (width - ds.length) '0' ++ ds

/-- Year and day of the year (from 0) of a day counted from 0001-01-01. -/
def yearOfDay (days : Int) : Int × Nat :=
  let n400 := days / 146097
  let d := (days % 146097).toNat
  let n100 := min (d / 36524) 3
  let d := d - 36524 * n100
  let n4 := d / 1461
  let d := d % 1461
  let n1 := min (d / 365) 3
  (400 * n400 + ((100 * n100 + 4 * n4 + n1 + 1 : Nat) : Int), d - 365 * n1)

/-- Month and day of the month of a day of the year (from 0). -/
def monthDay (year : Int) (yday : Nat) : Nat × Nat :=
  if isLeap year ∧ yday = 59 then (2, 29)
  else
    let day := if isLeap year ∧ 59 < yday then yday - 1 else yday
    let m := day / 31
    let e := daysBefore.getD (m + 1) 0
    if e ≤ day then (m + 2, day - e + 1) else (m + 1, day - daysBefore.getD m 0 + 1)

/-- The call `t.Format("20060102150405")`. -/
def formatDefaultLayout (t : Time) : Str :=
  let secs := t.ns / 1000000000
  let yd := yearOfDay (secs / 86400)
  let md := monthDay yd.1 yd.2
  let s := (secs % 86400).toNat
  appendInt yd.1 4 ++ appendInt md.1 2 ++ appendInt md.2 2
    ++ appendInt (s / 3600 : Nat) 2 ++ appendInt (s % 3600 / 60 : Nat) 2 ++ appendInt (s % 60 : Nat) 2

/-- The package `time` of the Go library, for the layout `20060102150405`;
no other layout is interpreted by this instance. -/
def goTime : TimeLib where
  Parse := fun layout value =>
    if layout = "20060102150405".toList then parseDefaultLayout value else none
  Format := fun t layout =>
    if layout = "20060102150405".toList then formatDefaultLayout t else []

/-! ## Sorting -/

/-- The inner loop of the library's `insertionSort`: the element `x` moves
left, by `Swap`, as long as it is `Less` than its left neighbour.  The list
holds the elements to the left of `x`, the nearest first. -/
def sinkLeft {α : Type} (less : α → α → Bool) (x : α) : List α → List α
  | [] => [x]
  | y :: ys => if less x y then y :: sinkLeft less x ys else x :: y :: ys

/-- The call `sort.Sort(data)` where `less a b` is `data.Less` on the elements:
each element in turn is moved left into the part already sorted. -/
def sortSort {α : Type} (less : α → α → Bool) (data : List α) : List α :=
  (data.foldl (fun done x => sinkLeft less x done) []).reverse

/-! ## Errors and the file system -/

/-- The error values the package returns or passes on. -/
inductive Error where
  /-- the sentinel `ErNoMigration` -/
  | ErNoMigration
  /-- the error `fmt.Errorf("unknown file name format")` -/
  | unknownFormat
  /-- the error of `time.Parse` -/
  | parseError
  /-- a file-system error `err` with `errors.Is(err, os.ErrNotExist)` -/
  | notExist
  /-- any other file-system error -/
  | ioError
deriving DecidableEq, Repr

deriving instance DecidableEq for Except

/-- A node of the file system: a regular file with its content, a directory,
or a link to the path `dest`: a symbolic link, or a further name of the file
at `dest`.  A `dest` that does not start with a slash is taken from the
directory the link lies in. -/
inductive Node where
  | file (data : Str)
  | dir
  | link (dest : Str)
deriving DecidableEq, Repr

/-- The file system: the nodes under their paths, which are free of links,
from the root (`/db/up`) or from the working directory (`db/up`, `../db`); the
first binding of a path counts. -/
structure FS where
  nodes : List (Str × Node)
deriving DecidableEq

/-- One entry of a directory listing (`os.DirEntry`): its name and `IsDir()`. -/
structure DirEntry where
  name : Str
  isDir : Bool
deriving DecidableEq, Repr

/-- Where the walk down a path has come to: at a path, its last element
looked up or not there; at a link, in directory `cur`, with the elements
`rest` still to go; or at an error. -/
inductive Walk where
  | found (path : Str)
  | via (cur dest : Str) (rest : List Str)
  | fail (err : Error)
deriving DecidableEq, Repr

namespace FS

def lookup (fs : FS) (path : Str) : Option Node := fs.nodes.lookup path

/-- The node at a path; the root and the working directory are always there. -/
def nodeAt (fs : FS) (path : Str) : Option Node :=
  if path = ['/'] ∨ path = ['.'] then some .dir else fs.lookup path

/-- What precedes the name of an entry of directory `dir` in the entry's path. -/
def dirPrefix (dir : Str) : Str :=
  if dir = ['/'] then ['/'] else if dir = ['.'] then [] else dir ++ ['/']

/-- The name under which `path` is an entry of directory `dir`, if it is one. -/
def childName (dir path : Str) : Option Str :=
  if path ≠ dir ∧ (dirPrefix dir).isPrefixOf path then
    let n := path.drop (dirPrefix dir).length
    if n ≠ [] ∧ '/' ∉ n then some n else none
  else none

/-- The directory a path lies in. -/
def parent (path : Str) : Str :=
  match (path.reverse.dropWhile (fun c => c ≠ '/')).reverse with
  | [] => ['.']
  | ['/'] => ['/']
  | d => d.dropLast

/-- The last element of a path. -/
def lastElem (path : Str) : Str := (path.reverse.takeWhile (fun c => c ≠ '/')).reverse

/-- The directory above directory `cur`, whose path is free of links: the
root is above itself, and above the working directory the path goes on with
`..`. -/
def up (cur : Str) : Str :=
  if cur = ['/'] then ['/']
  else if cur = ['.'] ∨ lastElem cur = ['.', '.'] then dirPrefix cur ++ ['.', '.']
  else parent cur

/-- The length of a string in bytes, as the system counts it. -/
def byteLen (s : Str) : Nat := (s.map Char.utf8Size).sum

/-- The elements of a path that the walk takes: all but the empty ones and `.`. -/
def comps (path : Str) : List Str :=
  (pathElems path []).filter (fun e => decide (e ≠ [] ∧ e ≠ ['.']))

/-- Where the walk down `path` starts when it is met in directory `cur`. -/
def startOf (cur path : Str) : Str := if path.head? = some '/' then ['/'] else cur

/-- The walk from directory `cur` down the elements of a path, as far as the
first link: `..` leads to the directory above; an element of more than 255
bytes is too long a name; a directory is entered; a file or nothing at all
ends the walk, with an error when elements are left. -/
def walk (fs : FS) : Str → List Str → Walk
  | cur, [] => .found cur
  | cur, x :: rest =>
    if x = ['.', '.'] then
      if fs.nodeAt (up cur) = some .dir then walk fs (up cur) rest else .fail .notExist
    else if 255 < byteLen x then .fail .ioError
    else
      match fs.lookup (dirPrefix cur ++ x) with
      | some (.link dest) => .via cur dest rest
      | some .dir => walk fs (dirPrefix cur ++ x) rest
      | some (.file _) => if rest = [] then .found (dirPrefix cur ++ x) else .fail .ioError
      | none => if rest = [] then .found (dirPrefix cur ++ x) else .fail .notExist

/-- The walk with the links followed; each link met takes one of `n`. -/
def resolveAux (fs : FS) : Nat → Str → List Str → Except Error Str
  | 0, _, _ => .error .ioError
  | n + 1, cur, xs =>
    match fs.walk cur xs with
    | .found q => .ok q
    | .fail err => .error err
    | .via dir dest rest => resolveAux fs n (startOf dir dest) (comps dest ++ rest)

/-- The path free of links that a path leads to, whether something is there
or not, as every system call finds it: the empty path leads nowhere, a path of
more than 4095 bytes is too long, and more than 40 links on the way are too
many. -/
def resolve (fs : FS) (path : Str) : Except Error Str :=
  if path = [] then .error .notExist
  else if 4095 < byteLen path then .error .ioError
  else fs.resolveAux 41 (startOf ['.'] path) (comps path)

end FS

/-- The function `os.Stat`, as far as its error goes. -/
def osStat (fs : FS) (name : Str) : Except Error Unit :=
  match fs.resolve name with
  | .error err => .error err
  | .ok q =>
    match fs.nodeAt q with
    | none => .error .notExist
    | some (.link _) => .error .ioError
    | some (.file _) => .ok ()
    | some .dir => .ok ()

/-- The function `os.ReadFile`. -/
def osReadFile (fs : FS) (name : Str) : Except Error Str :=
  match fs.resolve name with
  | .error err => .error err
  | .ok q =>
    match fs.nodeAt q with
    | none => .error .notExist
    | some (.link _) => .error .ioError
    | some .dir => .error .ioError
    | some (.file data) => .ok data

/-- The function `os.ReadDir`: the entries of the directory, sorted by name. -/
def osReadDir (fs : FS) (name : Str) : Except Error (List DirEntry) :=
  match fs.resolve name with
  | .error err => .error err
  | .ok q =>
    match fs.nodeAt q with
    | none => .error .notExist
    | some (.link _) => .error .ioError
    | some (.file _) => .error .ioError
    | some .dir =>
      let names := (fs.nodes.filterMap (fun kv => FS.childName q kv.1)).dedup
      .ok ((sortSort strLess names).map
        (fun n => ⟨n, decide (fs.lookup (FS.dirPrefix q ++ n) = some .dir)⟩))

/-- The function `os.WriteFile`: the file the path leads to, links followed,
is replaced if it is there and created in its directory otherwise, and then
holds exactly `data`.  Failures for other reasons, such as permissions or a
full volume, are outside the model. -/
def osWriteFile (fs : FS) (name data : Str) : Except Error FS :=
  match fs.resolve name with
  | .error err => .error err
  | .ok q =>
    match fs.nodeAt q with
    | some .dir => .error .ioError
    | some (.link _) => .error .ioError
    | some (.file _) => .ok ⟨(q, .file data) :: fs.nodes⟩
    | none => .ok ⟨(q, .file data) :: fs.nodes⟩

/-! ## The package -/

def DEF_FILE_DATE_FORMAT : Str := "20060102150405".toList
def DEF_FILE_PART_SEP : Str := "_".toList
def DEF_DOWN_DIR : Str := "down".toList
def DEF_UP_DIR : Str := "up".toList
def DEF_SCRIPT_EXT : Str := ".sql".toList
def DEF_POS_FILE_NAME : Str := "last_mig.pos".toList

/-- The type `MigType`, an `int`. -/
abbrev MigType := Int

def MG_UP : MigType := 0
def MG_DOWN : MigType := 1

/-- The struct `MigrFile`, a migration script. -/
structure MigrFile where
  Name : Str
  Pos : Time
  Action : Str
deriving DecidableEq, Repr

/-- The constructor `NewMigrFile`, which makes a `MigrFile` from a file name. -/
def NewMigrFile (L : TimeLib) (migrFileName dateFormat partSep : Str) : Except Error MigrFile :=
  let fileName := migrFileName.take (migrFileName.length - (filepathExt migrFileName).length)
  let fileParts := stringsSplit fileName partSep
  match fileParts with
  | [] => .error .unknownFormat
  | part0 :: more =>
    match L.Parse dateFormat part0 with
    | none => .error .parseError
    | some d =>
      .ok { Name := migrFileName, Pos := d,
            Action := match more with
              | part1 :: _ => part1
              | [] => [] }

/-- The type `MigrFileList`. -/
abbrev MigrFileList := List MigrFile

/-- The method `MigrFileList.Less`, on the two elements it compares. -/
def MigrFileList.Less (a b : MigrFile) : Bool := a.Pos.Before b.Pos

/-- The struct `Migrator`. -/
structure Migrator where
  Dir : Str
  UpDir : Str
  DownDir : Str
  DateFormat : Str
  FilePartSep : Str
  ScriptExt : Str
  PosFileName : Str
  FileList : MigrFileList

def NewMigrator (dir : Str) : Migrator :=
  { Dir := dir,
    ScriptExt := DEF_SCRIPT_EXT,
    UpDir := DEF_UP_DIR,
    DownDir := DEF_DOWN_DIR,
    DateFormat := DEF_FILE_DATE_FORMAT,
    FilePartSep := DEF_FILE_PART_SEP,
    PosFileName := DEF_POS_FILE_NAME,
    FileList := [] }

namespace Migrator

def GetDownDir (m : Migrator) : Str := filepathJoin [m.Dir, m.DownDir]

def GetUpDir (m : Migrator) : Str := filepathJoin [m.Dir, m.UpDir]

def GetLastMigrFileName (m : Migrator) (fs : FS) : Except Error Str :=
  let fileName := filepathJoin [m.Dir, m.PosFileName]
  match osStat fs fileName with
  | .error err => .error err
  | .ok _ =>
    match osReadFile fs fileName with
    | .error err => .error err
    | .ok fData => .ok fData

/-- The method `SetLastMigrFileName`; the result is the file system after the call. -/
def SetLastMigrFileName (m : Migrator) (fs : FS) (curMigrFileName : Str) : Except Error FS :=
  match osWriteFile fs (filepathJoin [m.Dir, m.PosFileName]) curMigrFileName with
  | .error err => .error err
  | .ok fs1 => .ok fs1

def GetLastMigrFile (m : Migrator) (L : TimeLib) (fs : FS) : Except Error MigrFile :=
  match m.GetLastMigrFileName fs with
  | .error err => .error err
  | .ok fName =>
    match NewMigrFile L fName m.DateFormat m.FilePartSep with
    | .error err => .error err
    | .ok f => .ok f

/-- The method `GetMigrFullFileName`: the path of a script of the given type. -/
def GetMigrFullFileName (m : Migrator) (mgType : MigType) (fName : Str) : Str :=
  let mgDir := if mgType = MG_UP then m.UpDir else m.DownDir
  filepathJoin [m.Dir, mgDir, fName]

/-- The method `GetMigrFileName`: the file name of a migration. -/
def GetMigrFileName (m : Migrator) (L : TimeLib) (t : Time) (act : Str) : Str :=
  L.Format t m.DateFormat ++ m.FilePartSep ++ act ++ m.ScriptExt

/-- The method `Add`: a new migration of type `mgType` with time `t` and action
`act`; the result is the file system after the call. -/
def Add (m : Migrator) (L : TimeLib) (fs : FS) (t : Time) (act : Str) (mgType : MigType)
    (fileContent : Str) : Except Error FS :=
  let fName := m.GetMigrFileName L t act
  let fullName := m.GetMigrFullFileName mgType fName
  match osWriteFile fs fullName fileContent with
  | .error err => .error err
  | .ok fs1 => .ok fs1

/-- The condition of the `continue` in the loop of `NewFileList`; in Go `&&`
binds tighter than `||`. -/
def skipFile (fromDate : Time) (mgType : MigType) (mgFile : MigrFile) : Bool :=
  (decide (fromDate ≠ Time.zero)
      && (decide (mgType = MG_UP) && (mgFile.Pos.Equal fromDate || mgFile.Pos.Before fromDate)))
    || (decide (mgType = MG_DOWN) && mgFile.Pos.After fromDate)

/-- The loop of `NewFileList` over the directory entries; `files` is the list
built so far. -/
def scanEntries (m : Migrator) (L : TimeLib) (fromDate : Time) (mgType : MigType) :
    List DirEntry → MigrFileList → Except Error MigrFileList
  | [], files => .ok files
  | info :: rest, files =>
    if info.isDir then scanEntries m L fromDate mgType rest files
    else
      match NewMigrFile L info.name m.DateFormat m.FilePartSep with
      | .error err => .error err
      | .ok mgFile =>
        if skipFile fromDate mgType mgFile then scanEntries m L fromDate mgType rest files
        else scanEntries m L fromDate mgType rest (files ++ [mgFile])

/-- The method `NewFileList`: the migration files of one type from `fromDate`
on, sorted by date. -/
def NewFileList (m : Migrator) (L : TimeLib) (fs : FS) (fromDate : Time) (mgType : MigType) :
    Except Error MigrFileList :=
  let mgDir := m.GetMigrFullFileName mgType []
  match osReadDir fs mgDir with
  | .error err => .error err
  | .ok aFiles =>
    match scanEntries m L fromDate mgType aFiles [] with
    | .error err => .error err
    | .ok files =>
      if mgType = MG_UP then .ok (sortSort MigrFileList.Less files)
      else .ok (sortSort (fun a b => MigrFileList.Less b a) files)

/-- The method `NextMigration`: the next migration of the given type. -/
def NextMigration (m : Migrator) (L : TimeLib) (fs : FS) (mgType : MigType) :
    Except Error MigrFile :=
  match m.GetLastMigrFile L fs with
  | .error err => if err = Error.notExist then .error Error.ErNoMigration else .error err
  | .ok mgFile =>
    match m.NewFileList L fs mgFile.Pos mgType with
    | .error err => .error err
    | .ok files =>
      match files with
      | f :: _ => .ok f
      | [] => .error Error.ErNoMigration

def Down (m : Migrator) (L : TimeLib) (fs : FS) : Except Error MigrFile :=
  m.NextMigration L fs MG_DOWN

def Up (m : Migrator) (L : TimeLib) (fs : FS) : Except Error MigrFile :=
  m.NextMigration L fs MG_UP

end Migrator

/-! ## The directories of the package's tests -/

def act1 : Str := "20190101100058_act1.sql".toList
def act2 : Str := "20200101100058_act2.sql".toList
def act3 : Str := "20240101000000_act3.sql".toList
def act4 : Str := "20241231235959_act4.sql".toList

/-- The four file names of `TestUp` and `TestDown`, in the order of the tests. -/
def testNames : List Str := [act3, act4, act2, act1]

/-- The listing `os.ReadDir` gives of a directory with the four files. -/
def testEntries : List DirEntry :=
  [⟨act1, false⟩, ⟨act2, false⟩, ⟨act3, false⟩, ⟨act4, false⟩]

def recAct1 : MigrFile := ⟨act1, dateUTC 2019 1 1 10 0 58 0, "act1".toList⟩
def recAct2 : MigrFile := ⟨act2, dateUTC 2020 1 1 10 0 58 0, "act2".toList⟩
def recAct3 : MigrFile := ⟨act3, dateUTC 2024 1 1 0 0 0 0, "act3".toList⟩
def recAct4 : MigrFile := ⟨act4, dateUTC 2024 12 31 23 59 59 0, "act4".toList⟩

/-- A script dated at the zero time, 0001-01-01 00:00:00. -/
def initName : Str := "00010101000000_init.sql".toList

def recInit : MigrFile := ⟨initName, Time.zero, "init".toList⟩

/-! ## Vocabulary of the statements -/

/-- The names of all entries that are not directories parse. -/
abbrev allParse (m : Migrator) (L : TimeLib) (entries : List DirEntry) : Prop :=
  ∀ e ∈ entries, e.isDir = false →
    (NewMigrFile L e.name m.DateFormat m.FilePartSep).toBool = true

/-- The record `r` is the one `NewMigrFile` makes of an entry that is not a directory. -/
def IsRecord (m : Migrator) (L : TimeLib) (entries : List DirEntry) (r : MigrFile) : Prop :=
  ∃ e ∈ entries, e.isDir = false ∧ NewMigrFile L e.name m.DateFormat m.FilePartSep = .ok r

/-- The records of the entries that are not directories, in the order of the listing. -/
def records (m : Migrator) (L : TimeLib) (entries : List DirEntry) : List MigrFile :=
  entries.filterMap (fun e =>
    if e.isDir then none else (NewMigrFile L e.name m.DateFormat m.FilePartSep).toOption)

/-- The position a file name parses to, if it parses. -/
abbrev posOf (m : Migrator) (L : TimeLib) (name : Str) : Option Time :=
  (NewMigrFile L name m.DateFormat m.FilePartSep).toOption.map (fun f => f.Pos)

/-- Two different regular files of the listing never have the same position. -/
abbrev distinctPos (m : Migrator) (L : TimeLib) (entries : List DirEntry) : Prop :=
  ∀ e1 ∈ entries, ∀ e2 ∈ entries, e1.isDir = false → e2.isDir = false →
    posOf m L e1.name = posOf m L e2.name → e1.name = e2.name

/-- The records the loop of `NewFileList` keeps, in the order of the listing. -/
def kept (m : Migrator) (L : TimeLib) (fromDate : Time) (mgType : MigType)
    (entries : List DirEntry) : List MigrFile :=
  (records m L entries).filter (fun f => !Migrator.skipFile fromDate mgType f)

/-- A base directory `/db` with the given script names in `up` and in `down`
and the given content of the position file, if there is one. -/
def mkFS (up down : List Str) (marker : Option Str) : FS :=
  ⟨[("/db".toList, Node.dir), ("/db/up".toList, Node.dir), ("/db/down".toList, Node.dir)]
    ++ up.map (fun n => ("/db/up/".toList ++ n, Node.file []))
    ++ down.map (fun n => ("/db/down/".toList ++ n, Node.file []))
    ++ (match marker with
        | some s => [("/db/last_mig.pos".toList, Node.file s)]
        | none => [])⟩

/-- The migrator of the examples: the defaults over `/db`. -/
def dbMigrator : Migrator := NewMigrator "/db".toList

/-- An `up` directory with the script dated at the zero time and one later
script; the marker names the former. -/
def zeroPivotFS : FS := mkFS [initName, act1] [] (some initName)

/-- An `up` directory with only the script dated at the zero time, which the
marker names. -/
def zeroOnlyFS : FS := mkFS [initName] [] (some initName)

/-- The file system of `TestUp` and `TestDown`: the four scripts in `up` and in
`down`, and the given content of the position file. -/
def testFS (marker : Option Str) : FS := mkFS testNames testNames marker

def tieA : Str := "20200101100058_a.sql".toList
def tieB : Str := "20200101100058_b.sql".toList

/-- An `up` directory with two scripts of the same date. -/
def tieFS : FS := mkFS [tieA, tieB] [] none

def recTieA : MigrFile := ⟨tieA, dateUTC 2020 1 1 10 0 58 0, "a".toList⟩
def recTieB : MigrFile := ⟨tieB, dateUTC 2020 1 1 10 0 58 0, "b".toList⟩

/-- The defaults over `/db`, but with no script extension configured. -/
def noExtMigrator : Migrator := { dbMigrator with ScriptExt := [] }

/-- The file name without the extension that `filepath.Ext` finds in it. -/
def stripExt (name : Str) : Str := name.take (name.length - (filepathExt name).length)

/-- The part of `s` before the first separator, all of `s` when the separator
does not occur.  An empty separator stands after every character, as it does
for `strings.Split`, so that the part before the first one is the first
character. -/
def beforeFirstSep : Str → Str → Str
  | [], _ => []
  | c :: cs, sep =>
    if sep = [] then [c]
    else if sep.isPrefixOf (c :: cs) then []
    else c :: beforeFirstSep cs sep

/-- An `up` directory with two scripts, a subdirectory `archive` and a file
`README.md`; the marker names the later script. -/
def strayFS : FS :=
  ⟨(mkFS [act1, act4] [] (some act4)).nodes
    ++ [("/db/up/archive".toList, Node.dir), ("/db/up/README.md".toList, Node.file [])]⟩

/-- An `up` directory with two scripts and a subdirectory `archive`. -/
def subdirFS : FS :=
  ⟨(mkFS [act1, act4] [] (some act1)).nodes ++ [("/db/up/archive".toList, Node.dir)]⟩

/-- The file system after a call that returns the new file system when it
succeeds and changes nothing when it fails. -/
def fsAfter (fs : FS) (r : Except Error FS) : FS :=
  match r with
  | .ok fs1 => fs1
  | .error _ => fs

/-- The defaults over `/db`, but with the position file named `pos.sql`. -/
def posSqlMigrator : Migrator := { dbMigrator with PosFileName := "pos.sql".toList }

/-- The directories of the tests with the position file `pos.sql`, which holds `act1`. -/
def posSqlFS : FS := ⟨(testFS none).nodes ++ [("/db/pos.sql".toList, Node.file act1)]⟩

/-- A file name that is one plain path element: not empty, without slash, and
neither `.` nor `..`. -/
abbrev plainName (f : Str) : Prop := f ≠ [] ∧ '/' ∉ f ∧ f ≠ ['.'] ∧ f ≠ ['.', '.']

/-- What holds of every element `filepath.Clean` keeps. -/
def keptElem (x : Str) : Prop := x ≠ [] ∧ x ≠ ['.'] ∧ '/' ∉ x

/-- A base directory `/db` without sub-directories. -/
def noUpFS : FS := ⟨[("/db".toList, Node.dir)]⟩

/-- One step of the forward traversal: `r := Up()`, then
`SetLastMigrFileName(r.Name)`; the record and the file system after the step. -/
def upStep (m : Migrator) (L : TimeLib) (fs : FS) : Except Error (MigrFile × FS) :=
  match m.Up L fs with
  | .error err => .error err
  | .ok r =>
    match m.SetLastMigrFileName fs r.Name with
    | .error err => .error err
    | .ok fs1 => .ok (r, fs1)

/-- The forward traversal, the step repeated at most `n` times: the records
returned, in order, and the error that ended the traversal, if one did. -/
def traverseUp (m : Migrator) (L : TimeLib) : Nat → FS → List MigrFile × Option Error
  | 0, _ => ([], none)
  | n + 1, fs =>
    match upStep m L fs with
    | .error err => ([], some err)
    | .ok (r, fs1) => (r :: (traverseUp m L n fs1).1, (traverseUp m L n fs1).2)

def yearZeroA : Str := "00000601000000_a.sql".toList

def recYearZeroA : MigrFile := ⟨yearZeroA, dateUTC 0 6 1 0 0 0 0, "a".toList⟩

/-- An `up` directory with a script of the year 0, the script dated at the zero
time and a later one; the marker is dated in the year 0, before all of them. -/
def yearZeroFS : FS := mkFS [yearZeroA, initName, act1] [] (some "00000101000000_m.sql".toList)

/-- The directories of the tests, with a directory standing at the path of the
script `20240101000000_act1.sql` in `up`. -/
def dirAtScriptFS : FS :=
  ⟨(testFS none).nodes ++ [("/db/up/20240101000000_act1.sql".toList, Node.dir)]⟩

/-- The defaults, but with an empty base directory and an empty name for the
sub-directory of direction up. -/
def cwdMigrator : Migrator := { dbMigrator with Dir := [], UpDir := [] }

/-- A file system that holds nothing but the current directory. -/
def cwdFS : FS := ⟨[(['.'], Node.dir)]⟩

/-- A state in which `/db` is a regular file, not a directory. -/
def dbIsFileFS : FS := ⟨[("/db".toList, Node.file "x".toList)]⟩

/-- The directories of the tests with the marker at `act1`, where the path of
the next `up` script is a link to the position file. -/
def linkedFS : FS :=
  ⟨(testFS (some act1)).nodes
    ++ [("/db/up/20240101000000_act1.sql".toList, Node.link "../last_mig.pos".toList)]⟩

/-- A label of 300 characters. -/
def longLabel : Str := List.replicate 300 'a'

/-! ## Sorting: the result is a sorted rearrangement -/

theorem sinkLeft_perm {α : Type} (less : α → α → Bool) (x : α) (ys : List α) :
    (sinkLeft less x ys).Perm (x :: ys) := by
  induction ys with
  | nil => simp [sinkLeft]
  | cons y ys ih =>
    unfold sinkLeft
    split
    · exact (List.Perm.cons y ih).trans (List.Perm.swap x y ys)
    · exact List.Perm.refl _

theorem foldl_sinkLeft_perm {α : Type} (less : α → α → Bool) (data done : List α) :
    (data.foldl (fun done x => sinkLeft less x done) done).Perm (data.reverse ++ done) := by
  induction data generalizing done with
  | nil => simp
  | cons x xs ih =>
    simp only [List.foldl_cons, List.reverse_cons, List.append_assoc, List.singleton_append]
    exact (ih _).trans (List.Perm.append_left _ (sinkLeft_perm less x done))

theorem sortSort_perm {α : Type} (less : α → α → Bool) (data : List α) :
    (sortSort less data).Perm data := by
  unfold sortSort
  have h := foldl_sinkLeft_perm less data []
  simp only [List.append_nil] at h
  exact (List.reverse_perm _).trans (h.trans (List.reverse_perm _))

theorem sinkLeft_pairwise {α : Type} (less : α → α → Bool)
    (hasym : ∀ a b, less a b = true → less b a = false)
    (htrans : ∀ a b c, less a b = false → less b c = false → less a c = false)
    (x : α) (ys : List α) (h : ys.Pairwise (fun a b => less a b = false)) :
    (sinkLeft less x ys).Pairwise (fun a b => less a b = false) := by
  induction ys with
  | nil => simp [sinkLeft]
  | cons y ys ih =>
    rw [List.pairwise_cons] at h
    unfold sinkLeft
    split
    · rename_i hxy
      rw [List.pairwise_cons]
      refine ⟨?_, ih h.2⟩
      intro z hz
      rcases (List.mem_cons.mp ((sinkLeft_perm less x ys).mem_iff.mp hz)) with hz | hz
      · subst hz; exact hasym _ _ hxy
      · exact h.1 z hz
    · rename_i hxy
      have hxy : less x y = false := by simpa using hxy
      rw [List.pairwise_cons]
      refine ⟨?_, List.pairwise_cons.mpr h⟩
      intro z hz
      rcases List.mem_cons.mp hz with hz | hz
      · subst hz; exact hxy
      · exact htrans _ _ _ hxy (h.1 z hz)

theorem foldl_sinkLeft_pairwise {α : Type} (less : α → α → Bool)
    (hasym : ∀ a b, less a b = true → less b a = false)
    (htrans : ∀ a b c, less a b = false → less b c = false → less a c = false)
    (data done : List α) (h : done.Pairwise (fun a b => less a b = false)) :
    (data.foldl (fun done x => sinkLeft less x done) done).Pairwise
      (fun a b => less a b = false) := by
  induction data generalizing done with
  | nil => simpa using h
  | cons x xs ih =>
    simp only [List.foldl_cons]
    exact ih _ (sinkLeft_pairwise less hasym htrans x done h)

/-- In the sorted list no element is `less` than one that stands before it. -/
theorem sortSort_pairwise {α : Type} (less : α → α → Bool)
    (hasym : ∀ a b, less a b = true → less b a = false)
    (htrans : ∀ a b c, less a b = false → less b c = false → less a c = false)
    (data : List α) :
    (sortSort less data).Pairwise (fun a b => less b a = false) := by
  unfold sortSort
  rw [List.pairwise_reverse]
  exact foldl_sinkLeft_pairwise less hasym htrans data [] List.Pairwise.nil

/-- The first element of the sorted list is an element of the data that no
element is `less` than. -/
theorem sortSort_head {α : Type} (less : α → α → Bool)
    (hasym : ∀ a b, less a b = true → less b a = false)
    (htrans : ∀ a b c, less a b = false → less b c = false → less a c = false)
    (data : List α) (h : α) (t : List α) (hs : sortSort less data = h :: t) :
    h ∈ data ∧ ∀ x ∈ data, less x h = false := by
  have hp := sortSort_perm less data
  have hw := sortSort_pairwise less hasym htrans data
  rw [hs] at hp hw
  refine ⟨hp.mem_iff.mp (List.mem_cons_self _ _), ?_⟩
  intro x hx
  rcases List.mem_cons.mp (hp.mem_iff.mpr hx) with hx | hx
  · subst hx
    cases hxx : less x x
    · rfl
    · have := hasym _ _ hxx; rw [hxx] at this; exact absurd this (by simp)
  · exact (List.pairwise_cons.mp hw).1 x hx

theorem sortSort_eq_nil {α : Type} (less : α → α → Bool) (data : List α)
    (hs : sortSort less data = []) : data = [] := by
  have hp := sortSort_perm less data
  rw [hs] at hp
  exact List.Perm.nil_eq hp |>.symm

theorem less_asymm (a b : MigrFile) (h : MigrFileList.Less a b = true) :
    MigrFileList.Less b a = false := by
  simp only [MigrFileList.Less, Time.Before, decide_eq_true_eq, decide_eq_false_iff_not] at *
  omega

theorem less_negtrans (a b c : MigrFile) (h1 : MigrFileList.Less a b = false)
    (h2 : MigrFileList.Less b c = false) : MigrFileList.Less a c = false := by
  simp only [MigrFileList.Less, Time.Before, decide_eq_false_iff_not] at *
  omega

/-! ## The loop of `NewFileList` -/

theorem mem_records (m : Migrator) (L : TimeLib) (entries : List DirEntry) (r : MigrFile) :
    r ∈ records m L entries ↔ IsRecord m L entries r := by
  unfold records IsRecord
  rw [List.mem_filterMap]
  constructor
  · rintro ⟨e, he, h⟩
    refine ⟨e, he, ?_⟩
    cases hd : e.isDir
    · refine ⟨rfl, ?_⟩
      rw [hd] at h
      cases hn : NewMigrFile L e.name m.DateFormat m.FilePartSep with
      | error err => rw [hn] at h; simp [Except.toOption] at h
      | ok f => rw [hn] at h; simp [Except.toOption] at h; rw [h]
    · rw [hd] at h; simp at h
  · rintro ⟨e, he, hd, hn⟩
    exact ⟨e, he, by simp [hd, hn, Except.toOption]⟩

theorem scanEntries_eq (m : Migrator) (L : TimeLib) (fromDate : Time) (mgType : MigType)
    (entries : List DirEntry) (h : allParse m L entries) (files : MigrFileList) :
    Migrator.scanEntries m L fromDate mgType entries files
      = .ok (files ++ kept m L fromDate mgType entries) := by
  induction entries generalizing files with
  | nil => simp [Migrator.scanEntries, kept, records]
  | cons e es ih =>
    have hes : allParse m L es := fun x hx => h x (List.mem_cons_of_mem _ hx)
    unfold Migrator.scanEntries
    cases hd : e.isDir
    · have hp := h e (List.mem_cons_self _ _) hd
      cases hn : NewMigrFile L e.name m.DateFormat m.FilePartSep with
      | error err => rw [hn] at hp; simp [Except.toBool] at hp
      | ok f =>
        cases hk : Migrator.skipFile fromDate mgType f
        · simp [ih hes, kept, records, hd, hn, hk, Except.toOption]
        · simp [ih hes, kept, records, hd, hn, hk, Except.toOption]
    · simp [ih hes, kept, records, hd]

theorem scanEntries_allParse (m : Migrator) (L : TimeLib) (fromDate : Time) (mgType : MigType)
    (entries : List DirEntry) (files out : MigrFileList)
    (h : Migrator.scanEntries m L fromDate mgType entries files = .ok out) :
    allParse m L entries := by
  induction entries generalizing files with
  | nil => intro e he; simp at he
  | cons e es ih =>
    unfold Migrator.scanEntries at h
    cases hd : e.isDir
    · rw [hd] at h
      cases hn : NewMigrFile L e.name m.DateFormat m.FilePartSep with
      | error err => rw [hn] at h; simp at h
      | ok f =>
        rw [hn] at h
        simp only [Bool.false_eq_true, if_false] at h
        have hes : allParse m L es := by
          split at h
          · exact ih _ h
          · exact ih _ h
        intro x hx hxd
        rcases List.mem_cons.mp hx with hx | hx
        · subst hx; rw [hn]; rfl
        · exact hes x hx hxd
    · rw [hd] at h
      simp only [if_true] at h
      have hes := ih _ h
      intro x hx hxd
      rcases List.mem_cons.mp hx with hx | hx
      · subst hx; rw [hd] at hxd; simp at hxd
      · exact hes x hx hxd

theorem skipFile_up (fromDate : Time) (f : MigrFile) :
    Migrator.skipFile fromDate MG_UP f
      = (decide (fromDate ≠ Time.zero) && (f.Pos.Equal fromDate || f.Pos.Before fromDate)) := by
  simp [Migrator.skipFile, MG_UP, MG_DOWN]

theorem skipFile_down (fromDate : Time) (f : MigrFile) :
    Migrator.skipFile fromDate MG_DOWN f = f.Pos.After fromDate := by
  simp [Migrator.skipFile, MG_UP, MG_DOWN]

theorem mem_kept_up (m : Migrator) (L : TimeLib) (P : Time) (hP : P ≠ Time.zero)
    (entries : List DirEntry) (f : MigrFile) :
    f ∈ kept m L P MG_UP entries ↔ f ∈ records m L entries ∧ P.Before f.Pos = true := by
  unfold kept
  rw [List.mem_filter, skipFile_up]
  simp only [hP, ne_eq, not_false_eq_true, decide_True, Bool.true_and, Time.Equal, Time.Before,
    Bool.not_eq_true', Bool.or_eq_false_iff, decide_eq_false_iff_not, decide_eq_true_eq]
  constructor
  · rintro ⟨h1, h2, h3⟩; exact ⟨h1, by omega⟩
  · rintro ⟨h1, h2⟩; exact ⟨h1, by omega, by omega⟩

theorem mem_kept_up_zero (m : Migrator) (L : TimeLib) (entries : List DirEntry) (f : MigrFile) :
    f ∈ kept m L Time.zero MG_UP entries ↔ f ∈ records m L entries := by
  unfold kept
  rw [List.mem_filter, skipFile_up]
  simp

theorem mem_kept_down (m : Migrator) (L : TimeLib) (P : Time)
    (entries : List DirEntry) (f : MigrFile) :
    f ∈ kept m L P MG_DOWN entries ↔ f ∈ records m L entries ∧ f.Pos.After P = false := by
  unfold kept
  rw [List.mem_filter, skipFile_down]
  simp

theorem NewFileList_up (m : Migrator) (L : TimeLib) (fs : FS) (fromDate : Time)
    (entries : List DirEntry)
    (hdir : osReadDir fs (m.GetMigrFullFileName MG_UP []) = .ok entries)
    (hparse : allParse m L entries) :
    m.NewFileList L fs fromDate MG_UP
      = .ok (sortSort MigrFileList.Less (kept m L fromDate MG_UP entries)) := by
  unfold Migrator.NewFileList
  simp [hdir, scanEntries_eq m L fromDate MG_UP entries hparse []]

theorem NewFileList_down (m : Migrator) (L : TimeLib) (fs : FS) (fromDate : Time)
    (entries : List DirEntry)
    (hdir : osReadDir fs (m.GetMigrFullFileName MG_DOWN []) = .ok entries)
    (hparse : allParse m L entries) :
    m.NewFileList L fs fromDate MG_DOWN
      = .ok (sortSort (fun a b => MigrFileList.Less b a) (kept m L fromDate MG_DOWN entries)) := by
  have hne : MG_DOWN ≠ MG_UP := by decide
  unfold Migrator.NewFileList
  simp [hdir, scanEntries_eq m L fromDate MG_DOWN entries hparse [], hne]

/-- A listing that succeeds has read the directory and parsed every regular file name. -/
theorem NewFileList_inv (m : Migrator) (L : TimeLib) (fs : FS) (fromDate : Time)
    (mgType : MigType) (files : MigrFileList)
    (h : m.NewFileList L fs fromDate mgType = .ok files) :
    ∃ entries, osReadDir fs (m.GetMigrFullFileName mgType []) = .ok entries
      ∧ allParse m L entries := by
  unfold Migrator.NewFileList at h
  dsimp only at h
  cases hdir : osReadDir fs (m.GetMigrFullFileName mgType []) with
  | error err => rw [hdir] at h; simp at h
  | ok entries =>
    rw [hdir] at h
    dsimp only at h
    refine ⟨entries, rfl, ?_⟩
    cases hscan : Migrator.scanEntries m L fromDate mgType entries [] with
    | error err => rw [hscan] at h; simp at h
    | ok out => exact scanEntries_allParse m L fromDate mgType entries [] out hscan

theorem NextMigration_cons (m : Migrator) (L : TimeLib) (fs : FS) (mgType : MigType)
    (mg f : MigrFile) (t : MigrFileList)
    (hmarker : m.GetLastMigrFile L fs = .ok mg)
    (hlist : m.NewFileList L fs mg.Pos mgType = .ok (f :: t)) :
    m.NextMigration L fs mgType = .ok f := by
  unfold Migrator.NextMigration
  rw [hmarker]
  dsimp only
  rw [hlist]

theorem NextMigration_nil (m : Migrator) (L : TimeLib) (fs : FS) (mgType : MigType)
    (mg : MigrFile)
    (hmarker : m.GetLastMigrFile L fs = .ok mg)
    (hlist : m.NewFileList L fs mg.Pos mgType = .ok []) :
    m.NextMigration L fs mgType = .error Error.ErNoMigration := by
  unfold Migrator.NextMigration
  rw [hmarker]
  dsimp only
  rw [hlist]

theorem NextMigration_ok_inv (m : Migrator) (L : TimeLib) (fs : FS) (mgType : MigType)
    (mg r : MigrFile)
    (hmarker : m.GetLastMigrFile L fs = .ok mg)
    (h : m.NextMigration L fs mgType = .ok r) :
    ∃ t, m.NewFileList L fs mg.Pos mgType = .ok (r :: t) := by
  unfold Migrator.NextMigration at h
  rw [hmarker] at h
  dsimp only at h
  cases hl : m.NewFileList L fs mg.Pos mgType with
  | error err => rw [hl] at h; simp at h
  | ok files =>
    rw [hl] at h
    cases files with
    | nil => simp at h
    | cons f t =>
      simp only [Except.ok.injEq] at h
      exact ⟨t, by rw [h]⟩

theorem NewMigrFile_name (L : TimeLib) (name dateFormat partSep : Str) (r : MigrFile)
    (h : NewMigrFile L name dateFormat partSep = .ok r) : r.Name = name := by
  unfold NewMigrFile at h
  dsimp only at h
  split at h
  · simp at h
  · split at h
    · simp at h
    · simp only [Except.ok.injEq] at h
      rw [← h]

/-- With a marker that parses and an `up` directory whose file names parse,
`Up` answers with the head of the sorted kept records or, when nothing is
kept, with the sentinel. -/
theorem Up_cases (m : Migrator) (L : TimeLib) (fs : FS) (mg : MigrFile)
    (entries : List DirEntry)
    (hmarker : m.GetLastMigrFile L fs = .ok mg)
    (hdir : osReadDir fs (m.GetMigrFullFileName MG_UP []) = .ok entries)
    (hparse : allParse m L entries) :
    (∃ h, m.Up L fs = .ok h ∧ h ∈ kept m L mg.Pos MG_UP entries
        ∧ ∀ x ∈ kept m L mg.Pos MG_UP entries, x.Pos.Before h.Pos = false)
    ∨ (kept m L mg.Pos MG_UP entries = [] ∧ m.Up L fs = .error Error.ErNoMigration) := by
  have hl := NewFileList_up m L fs mg.Pos entries hdir hparse
  cases hs : sortSort MigrFileList.Less (kept m L mg.Pos MG_UP entries) with
  | nil =>
    right
    rw [hs] at hl
    exact ⟨sortSort_eq_nil _ _ hs, NextMigration_nil m L fs MG_UP mg hmarker hl⟩
  | cons h t =>
    left
    rw [hs] at hl
    have hh := sortSort_head MigrFileList.Less less_asymm less_negtrans _ h t hs
    exact ⟨h, NextMigration_cons m L fs MG_UP mg h t hmarker hl, hh.1, hh.2⟩

/-- The same for `Down`, where the head is a record that is before no other kept one. -/
theorem Down_cases (m : Migrator) (L : TimeLib) (fs : FS) (mg : MigrFile)
    (entries : List DirEntry)
    (hmarker : m.GetLastMigrFile L fs = .ok mg)
    (hdir : osReadDir fs (m.GetMigrFullFileName MG_DOWN []) = .ok entries)
    (hparse : allParse m L entries) :
    (∃ h, m.Down L fs = .ok h ∧ h ∈ kept m L mg.Pos MG_DOWN entries
        ∧ ∀ x ∈ kept m L mg.Pos MG_DOWN entries, h.Pos.Before x.Pos = false)
    ∨ (kept m L mg.Pos MG_DOWN entries = [] ∧ m.Down L fs = .error Error.ErNoMigration) := by
  have hl := NewFileList_down m L fs mg.Pos entries hdir hparse
  cases hs : sortSort (fun a b => MigrFileList.Less b a) (kept m L mg.Pos MG_DOWN entries) with
  | nil =>
    right
    rw [hs] at hl
    exact ⟨sortSort_eq_nil _ _ hs, NextMigration_nil m L fs MG_DOWN mg hmarker hl⟩
  | cons h t =>
    left
    rw [hs] at hl
    have hh := sortSort_head (fun a b => MigrFileList.Less b a)
      (fun a b => less_asymm b a) (fun a b c h1 h2 => less_negtrans c b a h2 h1) _ h t hs
    exact ⟨h, NextMigration_cons m L fs MG_DOWN mg h t hmarker hl, hh.1, hh.2⟩

/-! ## The claims -/

/-- C1 (as amended): when the marker parses to a pivot `P` other than the zero
time and all regular-file names of the `up` directory parse, any record `Up`
returns is a record of the directory strictly after `P` that no record strictly
after `P` is before; and `Up` does return a record as soon as some record is
strictly after `P`. -/
theorem up_returns_least_after_pivot (m : Migrator) (L : TimeLib) (fs : FS) (mg : MigrFile)
    (entries : List DirEntry)
    (hmarker : m.GetLastMigrFile L fs = .ok mg)
    (hpivot : mg.Pos ≠ Time.zero)
    (hdir : osReadDir fs (m.GetMigrFullFileName MG_UP []) = .ok entries)
    (hparse : allParse m L entries) :
    (∀ r, m.Up L fs = .ok r →
        r ∈ records m L entries ∧ mg.Pos.Before r.Pos = true
        ∧ ∀ r1 ∈ records m L entries, mg.Pos.Before r1.Pos = true → r1.Pos.Before r.Pos = false)
    ∧ ((∃ r1 ∈ records m L entries, mg.Pos.Before r1.Pos = true) → ∃ r, m.Up L fs = .ok r) := by
  rcases Up_cases m L fs mg entries hmarker hdir hparse with ⟨h, hup, hmem, hmin⟩ | ⟨hk, hup⟩
  · refine ⟨?_, fun _ => ⟨h, hup⟩⟩
    intro r hr
    rw [hup] at hr
    simp only [Except.ok.injEq] at hr
    subst hr
    have hm := (mem_kept_up m L mg.Pos hpivot entries h).mp hmem
    exact ⟨hm.1, hm.2, fun r1 hr1 hb =>
      hmin r1 ((mem_kept_up m L mg.Pos hpivot entries r1).mpr ⟨hr1, hb⟩)⟩
  · refine ⟨?_, ?_⟩
    · intro r hr
      rw [hup] at hr
      simp at hr
    · rintro ⟨r1, hr1, hb⟩
      have := (mem_kept_up m L mg.Pos hpivot entries r1).mpr ⟨hr1, hb⟩
      rw [hk] at this
      simp at this

/-- C2 (as amended): when the marker parses to a pivot `P` and all regular-file
names of the `down` directory parse, any record `Down` returns is a record of
the directory that is not after `P` and that is before no record not after `P`
(the greatest position at or before `P`); and `Down` does return a record as
soon as some record is not after `P`. -/
theorem down_returns_greatest_not_after_pivot (m : Migrator) (L : TimeLib) (fs : FS)
    (mg : MigrFile) (entries : List DirEntry)
    (hmarker : m.GetLastMigrFile L fs = .ok mg)
    (hdir : osReadDir fs (m.GetMigrFullFileName MG_DOWN []) = .ok entries)
    (hparse : allParse m L entries) :
    (∀ r, m.Down L fs = .ok r →
        r ∈ records m L entries ∧ r.Pos.After mg.Pos = false
        ∧ ∀ r1 ∈ records m L entries, r1.Pos.After mg.Pos = false → r.Pos.Before r1.Pos = false)
    ∧ ((∃ r1 ∈ records m L entries, r1.Pos.After mg.Pos = false) → ∃ r, m.Down L fs = .ok r) := by
  rcases Down_cases m L fs mg entries hmarker hdir hparse with ⟨h, hdn, hmem, hmax⟩ | ⟨hk, hdn⟩
  · refine ⟨?_, fun _ => ⟨h, hdn⟩⟩
    intro r hr
    rw [hdn] at hr
    simp only [Except.ok.injEq] at hr
    subst hr
    have hm := (mem_kept_down m L mg.Pos entries h).mp hmem
    exact ⟨hm.1, hm.2, fun r1 hr1 hb =>
      hmax r1 ((mem_kept_down m L mg.Pos entries r1).mpr ⟨hr1, hb⟩)⟩
  · refine ⟨?_, ?_⟩
    · intro r hr
      rw [hdn] at hr
      simp at hr
    · rintro ⟨r1, hr1, hb⟩
      have := (mem_kept_down m L mg.Pos entries r1).mpr ⟨hr1, hb⟩
      rw [hk] at this
      simp at this

/-- C1, witness: the scenario of `TestUp` with the marker at `act2`, where `Up`
returns `act3`. -/
theorem up_returns_least_after_pivot_witness :
    ∃ r, dbMigrator.Up goTime (testFS (some act2)) = .ok r ∧ r.Name = act3
      ∧ recAct2.Pos.Before r.Pos = true
      ∧ ∀ r1 ∈ records dbMigrator goTime testEntries,
          recAct2.Pos.Before r1.Pos = true → r1.Pos.Before r.Pos = false :=
  have H := up_returns_least_after_pivot dbMigrator goTime (testFS (some act2)) recAct2
    testEntries (by decide) (by decide) (by decide) (by decide)
  ⟨recAct3, by decide, by decide, (H.1 recAct3 (by decide)).2.1, (H.1 recAct3 (by decide)).2.2⟩

/-- C1, counterexample: with a marker dated at the zero time `Up` returns the
record at the pivot itself, although the directory has a record strictly
after the pivot; the record returned is not strictly after the pivot. -/
theorem up_at_zero_pivot_returns_pivot_record :
    dbMigrator.GetLastMigrFile goTime zeroPivotFS = .ok recInit
    ∧ osReadDir zeroPivotFS (dbMigrator.GetMigrFullFileName MG_UP [])
        = .ok [⟨initName, false⟩, ⟨act1, false⟩]
    ∧ allParse dbMigrator goTime [⟨initName, false⟩, ⟨act1, false⟩]
    ∧ recAct1 ∈ records dbMigrator goTime [⟨initName, false⟩, ⟨act1, false⟩]
    ∧ recInit.Pos.Before recAct1.Pos = true
    ∧ dbMigrator.Up goTime zeroPivotFS = .ok recInit
    ∧ recInit.Pos.Before recInit.Pos = false := by
  decide

/-- C2, witness: the scenario of `TestDown` with the marker at `act3`, where
`Down` returns `act3`, the greatest record not after the pivot. -/
theorem down_returns_greatest_not_after_pivot_witness :
    ∃ r, dbMigrator.Down goTime (testFS (some act3)) = .ok r ∧ r.Name = act3
      ∧ r.Pos.After recAct3.Pos = false
      ∧ ∀ r1 ∈ records dbMigrator goTime testEntries,
          r1.Pos.After recAct3.Pos = false → r.Pos.Before r1.Pos = false :=
  have H := down_returns_greatest_not_after_pivot dbMigrator goTime (testFS (some act3)) recAct3
    testEntries (by decide) (by decide) (by decide)
  ⟨recAct3, by decide, by decide, (H.1 recAct3 (by decide)).2.1, (H.1 recAct3 (by decide)).2.2⟩

/-- C2, counterexample: in the scenario of `TestDown` with the marker at `act3`
the record `act4` is strictly after the pivot, yet `Down` returns `act3`, which
is not strictly after the pivot. -/
theorem down_returns_record_not_after_pivot :
    dbMigrator.GetLastMigrFile goTime (testFS (some act3)) = .ok recAct3
    ∧ osReadDir (testFS (some act3)) (dbMigrator.GetMigrFullFileName MG_DOWN []) = .ok testEntries
    ∧ allParse dbMigrator goTime testEntries
    ∧ recAct4 ∈ records dbMigrator goTime testEntries
    ∧ recAct3.Pos.Before recAct4.Pos = true
    ∧ dbMigrator.Down goTime (testFS (some act3)) = .ok recAct3
    ∧ recAct3.Pos.Before recAct3.Pos = false := by
  decide

/-- C3: when the `down` directory is read, all its regular-file names parse to
pairwise distinct positions and the marker holds the name of one of its
regular files, `Down` succeeds and returns the record of that name. -/
theorem down_returns_marker_record (m : Migrator) (L : TimeLib) (fs : FS)
    (entries : List DirEntry) (e : DirEntry)
    (hdir : osReadDir fs (m.GetMigrFullFileName MG_DOWN []) = .ok entries)
    (hparse : allParse m L entries)
    (hdistinct : distinctPos m L entries)
    (he : e ∈ entries) (hfile : e.isDir = false)
    (hmarker : m.GetLastMigrFileName fs = .ok e.name) :
    ∃ r, m.Down L fs = .ok r ∧ r.Name = e.name
      ∧ NewMigrFile L e.name m.DateFormat m.FilePartSep = .ok r := by
  have hp := hparse e he hfile
  cases hn : NewMigrFile L e.name m.DateFormat m.FilePartSep with
  | error err => rw [hn] at hp; simp [Except.toBool] at hp
  | ok r0 =>
    have hlast : m.GetLastMigrFile L fs = .ok r0 := by
      unfold Migrator.GetLastMigrFile
      rw [hmarker]
      dsimp only
      rw [hn]
    have hr0 : r0 ∈ kept m L r0.Pos MG_DOWN entries :=
      (mem_kept_down m L r0.Pos entries r0).mpr
        ⟨(mem_records m L entries r0).mpr ⟨e, he, hfile, hn⟩, by simp [Time.After]⟩
    rcases Down_cases m L fs r0 entries hlast hdir hparse with ⟨h, hdn, hmem, hmax⟩ | ⟨hk, _⟩
    · have hm := (mem_kept_down m L r0.Pos entries h).mp hmem
      obtain ⟨e1, he1, hfile1, hn1⟩ := (mem_records m L entries h).mp hm.1
      have hle := hm.2
      have hge := hmax r0 hr0
      simp only [Time.After, Time.Before, decide_eq_false_iff_not] at hle hge
      have hpos : h.Pos = r0.Pos := by
        cases hh : h.Pos with
        | mk a =>
          cases hr : r0.Pos with
          | mk b =>
            rw [hh, hr] at hle hge
            simp only at hle hge
            have : a = b := by omega
            rw [this]
      have hname : e1.name = e.name :=
        hdistinct e1 he1 e he hfile1 hfile (by simp [posOf, hn1, hn, Except.toOption, hpos])
      rw [hname, hn] at hn1
      simp only [Except.ok.injEq] at hn1
      subst hn1
      exact ⟨r0, hdn, NewMigrFile_name L e.name _ _ r0 hn, rfl⟩
    · rw [hk] at hr0
      simp at hr0

/-- C3, witness: the directory of `TestDown`; with the marker set to any of the
four names, `Down` returns the record of that name. -/
theorem down_returns_marker_record_witness :
    (∃ r, dbMigrator.Down goTime (testFS (some act3)) = .ok r ∧ r.Name = act3
      ∧ NewMigrFile goTime act3 dbMigrator.DateFormat dbMigrator.FilePartSep = .ok r)
    ∧ (∃ r, dbMigrator.Down goTime (testFS (some act4)) = .ok r ∧ r.Name = act4
      ∧ NewMigrFile goTime act4 dbMigrator.DateFormat dbMigrator.FilePartSep = .ok r)
    ∧ (∃ r, dbMigrator.Down goTime (testFS (some act2)) = .ok r ∧ r.Name = act2
      ∧ NewMigrFile goTime act2 dbMigrator.DateFormat dbMigrator.FilePartSep = .ok r)
    ∧ (∃ r, dbMigrator.Down goTime (testFS (some act1)) = .ok r ∧ r.Name = act1
      ∧ NewMigrFile goTime act1 dbMigrator.DateFormat dbMigrator.FilePartSep = .ok r) :=
  ⟨down_returns_marker_record dbMigrator goTime (testFS (some act3)) testEntries ⟨act3, false⟩
      (by decide) (by decide) (by decide) (by decide) rfl (by decide),
   down_returns_marker_record dbMigrator goTime (testFS (some act4)) testEntries ⟨act4, false⟩
      (by decide) (by decide) (by decide) (by decide) rfl (by decide),
   down_returns_marker_record dbMigrator goTime (testFS (some act2)) testEntries ⟨act2, false⟩
      (by decide) (by decide) (by decide) (by decide) rfl (by decide),
   down_returns_marker_record dbMigrator goTime (testFS (some act1)) testEntries ⟨act1, false⟩
      (by decide) (by decide) (by decide) (by decide) rfl (by decide)⟩

/-- C4 (as amended): in direction up, with a marker whose pivot `P` is not the
zero time, `NextMigration` never returns a record at `P`: any record returned
is strictly after `P`, so its position differs from `P`. -/
theorem up_excludes_pivot (m : Migrator) (L : TimeLib) (fs : FS) (mg r : MigrFile)
    (hmarker : m.GetLastMigrFile L fs = .ok mg)
    (hpivot : mg.Pos ≠ Time.zero)
    (hret : m.NextMigration L fs MG_UP = .ok r) :
    r.Pos ≠ mg.Pos ∧ r.Pos.Equal mg.Pos = false ∧ mg.Pos.Before r.Pos = true := by
  obtain ⟨t, hl⟩ := NextMigration_ok_inv m L fs MG_UP mg r hmarker hret
  obtain ⟨entries, hdir, hparse⟩ := NewFileList_inv m L fs mg.Pos MG_UP _ hl
  have hb : mg.Pos.Before r.Pos = true := by
    rcases Up_cases m L fs mg entries hmarker hdir hparse with ⟨h, hup, hmem, _⟩ | ⟨_, hup⟩
    · have hrh : Except.ok h = (Except.ok r : Except Error MigrFile) := hup.symm.trans hret
      simp only [Except.ok.injEq] at hrh
      subst hrh
      exact ((mem_kept_up m L mg.Pos hpivot entries h).mp hmem).2
    · have hbad : Except.error Error.ErNoMigration = (Except.ok r : Except Error MigrFile) :=
        hup.symm.trans hret
      simp at hbad
  have hlt : mg.Pos.ns < r.Pos.ns := by simpa [Time.Before] using hb
  refine ⟨?_, ?_, hb⟩
  · intro heq
    rw [heq] at hlt
    omega
  · simp only [Time.Equal, decide_eq_false_iff_not]
    omega

/-- C4, witness: the directory of `TestUp` holds `act2`; with the marker at
`act2`, `Up` returns `act3`, whose position is not the pivot. -/
theorem up_excludes_pivot_witness :
    recAct2 ∈ records dbMigrator goTime testEntries
    ∧ dbMigrator.NextMigration goTime (testFS (some act2)) MG_UP = .ok recAct3
    ∧ recAct3.Pos ≠ recAct2.Pos :=
  ⟨by decide, by decide,
   (up_excludes_pivot dbMigrator goTime (testFS (some act2)) recAct2 recAct3
      (by decide) (by decide) (by decide)).1⟩

/-- C4, counterexample: in direction down, with the marker at `act2` and a
directory that holds `act2`, `NextMigration` returns `act2`, the record at the
pivot. -/
theorem down_returns_pivot_record :
    dbMigrator.GetLastMigrFile goTime (testFS (some act2)) = .ok recAct2
    ∧ recAct2 ∈ records dbMigrator goTime testEntries
    ∧ osReadDir (testFS (some act2)) (dbMigrator.GetMigrFullFileName MG_DOWN []) = .ok testEntries
    ∧ dbMigrator.NextMigration goTime (testFS (some act2)) MG_DOWN = .ok recAct2
    ∧ recAct2.Pos.Equal recAct2.Pos = true := by
  decide

/-- C5 (as amended): when `os.Stat` reports that the position file does not
exist, `GetLastMigrFileName` and `GetLastMigrFile` fail with the not-exist
error, and `NextMigration`, hence `Up` and `Down`, turns that error into the
sentinel `ErNoMigration`; any other error of `os.Stat`, such as that of a
position file path which runs through a regular file, is passed on unchanged
by all five. -/
theorem no_marker_gives_sentinel (m : Migrator) (L : TimeLib) (fs : FS) (mgType : MigType) :
    (osStat fs (filepathJoin [m.Dir, m.PosFileName]) = .error Error.notExist →
      m.GetLastMigrFileName fs = .error Error.notExist
      ∧ m.GetLastMigrFile L fs = .error Error.notExist
      ∧ m.NextMigration L fs mgType = .error Error.ErNoMigration
      ∧ m.Up L fs = .error Error.ErNoMigration
      ∧ m.Down L fs = .error Error.ErNoMigration)
    ∧ (∀ err, osStat fs (filepathJoin [m.Dir, m.PosFileName]) = .error err →
        err ≠ Error.notExist →
        m.GetLastMigrFileName fs = .error err
        ∧ m.GetLastMigrFile L fs = .error err
        ∧ m.NextMigration L fs mgType = .error err
        ∧ m.Up L fs = .error err
        ∧ m.Down L fs = .error err) := by
  have key : ∀ err, osStat fs (filepathJoin [m.Dir, m.PosFileName]) = .error err →
      m.GetLastMigrFileName fs = .error err ∧ m.GetLastMigrFile L fs = .error err := by
    intro err hstat
    have h1 : m.GetLastMigrFileName fs = .error err := by
      simp [Migrator.GetLastMigrFileName, hstat]
    exact ⟨h1, by simp [Migrator.GetLastMigrFile, h1]⟩
  constructor
  · intro hstat
    obtain ⟨h1, h2⟩ := key _ hstat
    have h3 : ∀ t, m.NextMigration L fs t = .error Error.ErNoMigration := by
      intro t
      simp [Migrator.NextMigration, h2]
    exact ⟨h1, h2, h3 mgType, h3 MG_UP, h3 MG_DOWN⟩
  · intro err hstat hne
    obtain ⟨h1, h2⟩ := key _ hstat
    have h3 : ∀ t, m.NextMigration L fs t = .error err := by
      intro t
      simp [Migrator.NextMigration, h2, hne]
    exact ⟨h1, h2, h3 mgType, h3 MG_UP, h3 MG_DOWN⟩

/-- C5, witness: the directories of the tests before any marker is written,
where `os.Stat` reports that the position file does not exist; and a state in
which `/db` is a regular file, where `os.Stat` fails otherwise and `Up` passes
that error on. -/
theorem no_marker_gives_sentinel_witness :
    (osStat (testFS none) (filepathJoin [dbMigrator.Dir, dbMigrator.PosFileName])
        = .error Error.notExist
      ∧ dbMigrator.GetLastMigrFileName (testFS none) = .error Error.notExist
      ∧ dbMigrator.Up goTime (testFS none) = .error Error.ErNoMigration)
    ∧ (osStat dbIsFileFS (filepathJoin [dbMigrator.Dir, dbMigrator.PosFileName])
        = .error Error.ioError
      ∧ dbMigrator.Up goTime dbIsFileFS = .error Error.ioError) :=
  have H := (no_marker_gives_sentinel dbMigrator goTime (testFS none) MG_UP).1 (by decide)
  have K := (no_marker_gives_sentinel dbMigrator goTime dbIsFileFS MG_UP).2
    Error.ioError (by decide) (by decide)
  ⟨⟨by decide, H.1, H.2.2.2.1⟩, by decide, K.2.2.2.1⟩

/-- C5, counterexample: without a position file the error of `NextMigration`
is the sentinel `ErNoMigration` itself, not the not-exist error; and where
`/db` is a regular file no node stands at the path of the position file
either, yet the error is neither of the two. -/
theorem no_marker_error_is_sentinel :
    (testFS none).lookup (filepathJoin [dbMigrator.Dir, dbMigrator.PosFileName]) = none
    ∧ dbMigrator.NextMigration goTime (testFS none) MG_UP = .error Error.ErNoMigration
    ∧ dbMigrator.NextMigration goTime (testFS none) MG_DOWN = .error Error.ErNoMigration
    ∧ dbMigrator.NextMigration goTime (testFS none) MG_UP ≠ .error Error.notExist
    ∧ dbIsFileFS.lookup (filepathJoin [dbMigrator.Dir, dbMigrator.PosFileName]) = none
    ∧ dbMigrator.NextMigration goTime dbIsFileFS MG_UP = .error Error.ioError
    ∧ dbMigrator.NextMigration goTime dbIsFileFS MG_DOWN = .error Error.ioError := by
  decide

/-- C6 (as amended): when the marker parses to a pivot `P`, the directory of
the direction is read and all its regular-file names parse, `NextMigration`
fails with exactly `ErNoMigration` in direction up if `P` is not the zero time
and no record is strictly after `P`, and in direction down if every record is
strictly after `P`. -/
theorem exhausted_gives_sentinel (m : Migrator) (L : TimeLib) (fs : FS) (mg : MigrFile)
    (mgType : MigType) (entries : List DirEntry)
    (hmarker : m.GetLastMigrFile L fs = .ok mg)
    (hdir : osReadDir fs (m.GetMigrFullFileName mgType []) = .ok entries)
    (hparse : allParse m L entries)
    (hnone : (mgType = MG_UP ∧ mg.Pos ≠ Time.zero
                ∧ ∀ r ∈ records m L entries, mg.Pos.Before r.Pos = false)
             ∨ (mgType = MG_DOWN ∧ ∀ r ∈ records m L entries, r.Pos.After mg.Pos = true)) :
    m.NextMigration L fs mgType = .error Error.ErNoMigration := by
  rcases hnone with ⟨ht, hpivot, hno⟩ | ⟨ht, hno⟩
  · subst ht
    rcases Up_cases m L fs mg entries hmarker hdir hparse with ⟨h, _, hmem, _⟩ | ⟨_, hup⟩
    · have hm := (mem_kept_up m L mg.Pos hpivot entries h).mp hmem
      rw [hno h hm.1] at hm
      simp at hm
    · exact hup
  · subst ht
    rcases Down_cases m L fs mg entries hmarker hdir hparse with ⟨h, _, hmem, _⟩ | ⟨_, hdn⟩
    · have hm := (mem_kept_down m L mg.Pos entries h).mp hmem
      rw [hno h hm.1] at hm
      simp at hm
    · exact hdn

/-- C6, witness: the scenario of `TestUp` with the marker at `act4`, the latest
of the four files, where `Up` fails with `ErNoMigration`. -/
theorem exhausted_gives_sentinel_witness :
    dbMigrator.Up goTime (testFS (some act4)) = .error Error.ErNoMigration :=
  exhausted_gives_sentinel dbMigrator goTime (testFS (some act4)) recAct4 MG_UP testEntries
    (by decide) (by decide) (by decide) (Or.inl (by decide))

/-- C6, counterexample: the marker is dated at the zero time and the `up`
directory holds no record strictly after it, yet `NextMigration` succeeds and
returns the record at the pivot. -/
theorem zero_pivot_not_exhausted :
    dbMigrator.GetLastMigrFile goTime zeroOnlyFS = .ok recInit
    ∧ osReadDir zeroOnlyFS (dbMigrator.GetMigrFullFileName MG_UP []) = .ok [⟨initName, false⟩]
    ∧ allParse dbMigrator goTime [⟨initName, false⟩]
    ∧ (∀ r ∈ records dbMigrator goTime [⟨initName, false⟩], recInit.Pos.Before r.Pos = false)
    ∧ dbMigrator.NextMigration goTime zeroOnlyFS MG_UP = .ok recInit := by
  decide

/-- C8: the name `20200101100058_act_with_underscore.sql` parses, with the
separator `_`, to the position 2020-01-01 10:00:58 and to the label `act`, the
piece between the first and the second separator, not to
`act_with_underscore`. -/
theorem label_cut_at_second_separator :
    NewMigrFile goTime "20200101100058_act_with_underscore.sql".toList
        DEF_FILE_DATE_FORMAT DEF_FILE_PART_SEP
      = .ok ⟨"20200101100058_act_with_underscore.sql".toList, dateUTC 2020 1 1 10 0 58 0,
          "act".toList⟩
    ∧ stringsSplit "20200101100058_act_with_underscore".toList DEF_FILE_PART_SEP
      = ["20200101100058".toList, "act".toList, "with".toList, "underscore".toList] := by
  decide

/-! ## Order of the listing -/

theorem osReadDir_names_nodup (fs : FS) (dir : Str) (entries : List DirEntry)
    (h : osReadDir fs dir = .ok entries) :
    entries.Pairwise (fun a b => a.name ≠ b.name) := by
  unfold osReadDir at h
  split at h
  · simp at h
  · split at h
    · simp at h
    · simp at h
    · simp at h
    · simp only [Except.ok.injEq] at h
      rw [← h, List.pairwise_map]
      exact (sortSort_perm strLess _).nodup_iff.mpr (List.nodup_dedup _)

theorem records_pos_ne (m : Migrator) (L : TimeLib) (entries : List DirEntry)
    (hnames : entries.Pairwise (fun a b => a.name ≠ b.name))
    (hdistinct : distinctPos m L entries) :
    (records m L entries).Pairwise (fun a b => a.Pos ≠ b.Pos) := by
  unfold records
  rw [List.pairwise_filterMap]
  refine List.Pairwise.imp_of_mem ?_ hnames
  intro e1 e2 h1 h2 hne r1 hr1 r2 hr2 hpos
  cases hd1 : e1.isDir
  · cases hd2 : e2.isDir
    · rw [hd1] at hr1
      rw [hd2] at hr2
      simp only [Bool.false_eq_true, if_false, Option.mem_def] at hr1 hr2
      exact hne (hdistinct e1 h1 e2 h2 hd1 hd2 (by simp [posOf, hr1, hr2, hpos]))
    · rw [hd2] at hr2; simp at hr2
  · rw [hd1] at hr1; simp at hr1

theorem kept_pos_ne (m : Migrator) (L : TimeLib) (fromDate : Time) (mgType : MigType)
    (entries : List DirEntry)
    (hnames : entries.Pairwise (fun a b => a.name ≠ b.name))
    (hdistinct : distinctPos m L entries) :
    (kept m L fromDate mgType entries).Pairwise (fun a b => a.Pos ≠ b.Pos) :=
  (records_pos_ne m L entries hnames hdistinct).sublist (List.filter_sublist _)

theorem sortSort_pos_ne (less : MigrFile → MigrFile → Bool) (data : List MigrFile)
    (h : data.Pairwise (fun a b => a.Pos ≠ b.Pos)) :
    (sortSort less data).Pairwise (fun a b => a.Pos ≠ b.Pos) :=
  ((sortSort_perm less data).pairwise_iff (fun hab => Ne.symm hab)).mpr h

theorem time_lt_of_le_of_ne (a b : Time) (hle : b.Before a = false) (hne : a ≠ b) :
    a.Before b = true := by
  cases a with
  | mk x =>
    cases b with
    | mk y =>
      simp only [Time.Before, decide_eq_false_iff_not, decide_eq_true_eq, ne_eq,
        Time.mk.injEq] at *
      omega

/-- C9 (as amended): a list returned by `NewFileList` is sorted by position.
Under `MG_UP` no record stands before a record of an earlier position, and
each record's position is strictly before that of every later record when the
regular files of the directory have pairwise distinct positions; under
`MG_DOWN` the same holds with the order reversed. -/
theorem listing_sorted (m : Migrator) (L : TimeLib) (fs : FS) (fromDate : Time)
    (mgType : MigType) (entries : List DirEntry) (files : MigrFileList)
    (hdir : osReadDir fs (m.GetMigrFullFileName mgType []) = .ok entries)
    (hlist : m.NewFileList L fs fromDate mgType = .ok files) :
    (mgType = MG_UP →
      files.Pairwise (fun a b => b.Pos.Before a.Pos = false)
      ∧ (distinctPos m L entries → files.Pairwise (fun a b => a.Pos.Before b.Pos = true)))
    ∧ (mgType = MG_DOWN →
      files.Pairwise (fun a b => a.Pos.Before b.Pos = false)
      ∧ (distinctPos m L entries → files.Pairwise (fun a b => b.Pos.Before a.Pos = true))) := by
  obtain ⟨entries1, hdir1, hparse1⟩ := NewFileList_inv m L fs fromDate mgType files hlist
  have he : entries1 = entries := by
    rw [hdir] at hdir1
    simp only [Except.ok.injEq] at hdir1
    exact hdir1.symm
  subst he
  have hnames := osReadDir_names_nodup fs _ entries1 hdir
  constructor
  · intro ht
    subst ht
    rw [NewFileList_up m L fs fromDate entries1 hdir hparse1] at hlist
    simp only [Except.ok.injEq] at hlist
    subst hlist
    have hs := sortSort_pairwise MigrFileList.Less less_asymm less_negtrans
      (kept m L fromDate MG_UP entries1)
    refine ⟨hs, fun hdistinct => ?_⟩
    have hne := sortSort_pos_ne MigrFileList.Less _
      (kept_pos_ne m L fromDate MG_UP entries1 hnames hdistinct)
    exact (hs.and hne).imp (fun hab => time_lt_of_le_of_ne _ _ hab.1 hab.2)
  · intro ht
    subst ht
    rw [NewFileList_down m L fs fromDate entries1 hdir hparse1] at hlist
    simp only [Except.ok.injEq] at hlist
    subst hlist
    have hs := sortSort_pairwise (fun a b => MigrFileList.Less b a)
      (fun a b => less_asymm b a) (fun a b c h1 h2 => less_negtrans c b a h2 h1)
      (kept m L fromDate MG_DOWN entries1)
    refine ⟨hs, fun hdistinct => ?_⟩
    have hne := sortSort_pos_ne (fun a b => MigrFileList.Less b a) _
      (kept_pos_ne m L fromDate MG_DOWN entries1 hnames hdistinct)
    exact (hs.and hne).imp (fun hab => time_lt_of_le_of_ne _ _ hab.1 (Ne.symm hab.2))

/-- C9, witness: the `up` directory of `TestUpFileList`, listed from the zero
time, comes out strictly ascending. -/
theorem listing_sorted_witness :
    dbMigrator.NewFileList goTime (testFS none) Time.zero MG_UP
      = .ok [recAct1, recAct2, recAct3, recAct4]
    ∧ [recAct1, recAct2, recAct3, recAct4].Pairwise (fun a b => a.Pos.Before b.Pos = true) :=
  ⟨by decide,
   ((listing_sorted dbMigrator goTime (testFS none) Time.zero MG_UP testEntries
      [recAct1, recAct2, recAct3, recAct4] (by decide) (by decide)).1 rfl).2 (by decide)⟩

/-- C9, counterexample: two scripts of the same date are both listed, and the
position of the first is not strictly before the position of the second. -/
theorem listing_not_strict_on_equal_dates :
    osReadDir tieFS (dbMigrator.GetMigrFullFileName MG_UP [])
      = .ok [⟨tieA, false⟩, ⟨tieB, false⟩]
    ∧ allParse dbMigrator goTime [⟨tieA, false⟩, ⟨tieB, false⟩]
    ∧ dbMigrator.NewFileList goTime tieFS Time.zero MG_UP = .ok [recTieA, recTieB]
    ∧ recTieA.Pos.Before recTieB.Pos = false := by
  decide

/-- C10: listed from the zero time in direction `MG_DOWN`, the `down` directory
of the tests, which holds four regular files whose names parse, gives the empty
list; the same call in direction `MG_UP` gives the four records of `up`. -/
theorem down_listing_from_zero_is_empty :
    osReadDir (testFS none) (dbMigrator.GetMigrFullFileName MG_DOWN []) = .ok testEntries
    ∧ allParse dbMigrator goTime testEntries
    ∧ dbMigrator.NewFileList goTime (testFS none) Time.zero MG_DOWN = .ok []
    ∧ dbMigrator.NewFileList goTime (testFS none) Time.zero MG_UP
      = .ok [recAct1, recAct2, recAct3, recAct4] := by
  decide

/-! ## Writing a file name and reading it back -/

theorem extScan_suffix (x rest seen : Str) (hx : ∀ c ∈ x, c ≠ '.' ∧ c ≠ '/') :
    extScan (x ++ '.' :: rest) seen = '.' :: (x.reverse ++ seen) := by
  induction x generalizing seen with
  | nil => simp [extScan]
  | cons c x ih =>
    have hc := hx c (List.mem_cons_self _ _)
    have := ih (c :: seen) (fun d hd => hx d (List.mem_cons_of_mem _ hd))
    simp [extScan, hc.1, hc.2, this]

theorem filepathExt_of_ext (body e : Str) (he : ∀ c ∈ e, c ≠ '.' ∧ c ≠ '/') :
    filepathExt (body ++ '.' :: e) = '.' :: e := by
  unfold filepathExt
  have hrev : (body ++ '.' :: e).reverse = e.reverse ++ '.' :: body.reverse := by simp
  rw [hrev, extScan_suffix _ _ _ (fun c hc => he c (List.mem_reverse.mp hc))]
  simp

theorem splitLoop_skip (sep x rest cur : Str) :
    splitLoop sep (x ++ rest) x.length cur = splitLoop sep rest 0 cur := by
  induction x with
  | nil => simp
  | cons c x ih => simp [splitLoop, ih]

theorem splitLoop_noSep (sep p rest cur : Str)
    (h : ∀ i, i < p.length → sep.isPrefixOf ((p ++ rest).drop i) = false) :
    splitLoop sep (p ++ rest) 0 cur = splitLoop sep rest 0 (p.reverse ++ cur) := by
  induction p generalizing cur with
  | nil => simp
  | cons c p ih =>
    have h0 := h 0 (by simp)
    simp only [List.drop_zero, List.cons_append] at h0
    have hi : ∀ i, i < p.length → sep.isPrefixOf ((p ++ rest).drop i) = false := by
      intro i hi
      have := h (i + 1) (by simp; omega)
      simpa using this
    rw [List.cons_append, splitLoop, if_neg (by rw [h0]; simp), ih _ hi]
    simp

theorem stringsSplit_once (ts sep act : Str) (hsep : sep ≠ [])
    (honce : ∀ i, i < (ts ++ sep ++ act).length →
      sep.isPrefixOf ((ts ++ sep ++ act).drop i) = true → i = ts.length) :
    stringsSplit (ts ++ sep ++ act) sep = [ts, act] := by
  unfold stringsSplit
  rw [if_neg hsep, List.append_assoc]
  have hlen : 0 < sep.length := List.length_pos.mpr hsep
  have h1 : ∀ i, i < ts.length → sep.isPrefixOf ((ts ++ (sep ++ act)).drop i) = false := by
    intro i hi
    cases hb : sep.isPrefixOf ((ts ++ (sep ++ act)).drop i) with
    | false => rfl
    | true =>
      have := honce i (by simp; omega) (by rw [List.append_assoc]; exact hb)
      omega
  have h2 : ∀ i, i < act.length → sep.isPrefixOf ((act ++ []).drop i) = false := by
    intro i hi
    cases hb : sep.isPrefixOf ((act ++ []).drop i) with
    | false => rfl
    | true =>
      have hd : (ts ++ sep ++ act).drop (ts.length + sep.length + i) = (act ++ []).drop i := by
        rw [← List.length_append, ← List.drop_drop, List.drop_left]
        simp
      have := honce (ts.length + sep.length + i) (by simp; omega) (by rw [hd]; exact hb)
      omega
  rw [splitLoop_noSep sep ts (sep ++ act) [] h1]
  cases sep with
  | nil => exact absurd rfl hsep
  | cons s0 s1 =>
    have hp : (s0 :: s1).isPrefixOf (s0 :: (s1 ++ act)) = true := by
      rw [List.isPrefixOf_iff_prefix]
      exact ⟨act, rfl⟩
    have h3 := splitLoop_noSep (s0 :: s1) act [] [] h2
    rw [List.append_nil] at h3
    rw [List.cons_append, splitLoop, if_pos hp]
    simp only [List.length_cons, Nat.add_sub_cancel]
    rw [splitLoop_skip, h3]
    simp [splitLoop]


/-- C7 (as amended): for every time `t` that the date format gives back
(`Parse` of `Format t` is `t`) and every label, when the separator is not empty
and occurs in timestamp, separator and label only at the place where
`GetMigrFileName` wrote it (so the label does not contain it), and the
extension `filepath.Ext` finds in the file name is `ScriptExt` itself,
`NewMigrFile` of `GetMigrFileName t label` succeeds with `Pos` equal to `t`,
`Action` equal to the label and `Name` equal to the file name. -/
theorem format_parse_roundtrip (m : Migrator) (L : TimeLib) (t : Time) (act : Str)
    (hfmt : L.Parse m.DateFormat (L.Format t m.DateFormat) = some t)
    (hext : filepathExt (m.GetMigrFileName L t act) = m.ScriptExt)
    (hsep : m.FilePartSep ≠ [])
    (honce : ∀ i, i < (L.Format t m.DateFormat ++ m.FilePartSep ++ act).length →
      m.FilePartSep.isPrefixOf ((L.Format t m.DateFormat ++ m.FilePartSep ++ act).drop i) = true →
      i = (L.Format t m.DateFormat).length) :
    NewMigrFile L (m.GetMigrFileName L t act) m.DateFormat m.FilePartSep
      = .ok ⟨m.GetMigrFileName L t act, t, act⟩ := by
  have hsplit := stringsSplit_once _ _ _ hsep honce
  have htake : (m.GetMigrFileName L t act).take
      ((m.GetMigrFileName L t act).length - (filepathExt (m.GetMigrFileName L t act)).length)
      = L.Format t m.DateFormat ++ m.FilePartSep ++ act := by
    rw [hext]
    unfold Migrator.GetMigrFileName
    rw [List.length_append, Nat.add_sub_cancel, List.take_left]
  unfold NewMigrFile
  simp only [htake, hsplit, hfmt]

/-- C7, witness: the defaults, the time 2024-01-01 00:00:00 and the label
`act1`, that is the file name `20240101000000_act1.sql`. -/
theorem format_parse_roundtrip_witness :
    dbMigrator.GetMigrFileName goTime (dateUTC 2024 1 1 0 0 0 0) "act1".toList
      = "20240101000000_act1.sql".toList
    ∧ NewMigrFile goTime "20240101000000_act1.sql".toList DEF_FILE_DATE_FORMAT DEF_FILE_PART_SEP
      = .ok ⟨"20240101000000_act1.sql".toList, dateUTC 2024 1 1 0 0 0 0, "act1".toList⟩ :=
  ⟨by decide,
   format_parse_roundtrip dbMigrator goTime (dateUTC 2024 1 1 0 0 0 0) "act1".toList
     (by decide) (by decide) (by decide) (by decide)⟩

/-- C7, counterexample: with no script extension configured, the label `v1.2`
at 2020-01-01 10:00:58 is written as `20200101100058_v1.2` and read back as
`v1`, because `NewMigrFile` strips `.2` as the extension; and with the defaults
the label `act_with_underscore` is read back as `act`. -/
theorem roundtrip_loses_label :
    goTime.Parse noExtMigrator.DateFormat
        (goTime.Format (dateUTC 2020 1 1 10 0 58 0) noExtMigrator.DateFormat)
      = some (dateUTC 2020 1 1 10 0 58 0)
    ∧ noExtMigrator.GetMigrFileName goTime (dateUTC 2020 1 1 10 0 58 0) "v1.2".toList
      = "20200101100058_v1.2".toList
    ∧ NewMigrFile goTime
        (noExtMigrator.GetMigrFileName goTime (dateUTC 2020 1 1 10 0 58 0) "v1.2".toList)
        noExtMigrator.DateFormat noExtMigrator.FilePartSep
      = .ok ⟨"20200101100058_v1.2".toList, dateUTC 2020 1 1 10 0 58 0, "v1".toList⟩
    ∧ NewMigrFile goTime
        (dbMigrator.GetMigrFileName goTime (dateUTC 2020 1 1 10 0 58 0)
          "act_with_underscore".toList)
        dbMigrator.DateFormat dbMigrator.FilePartSep
      = .ok ⟨"20200101100058_act_with_underscore.sql".toList, dateUTC 2020 1 1 10 0 58 0,
          "act".toList⟩ := by
  decide

/-- With `ScriptExt` a dot followed by characters other than dots and slashes,
as the default `.sql` is, `filepath.Ext` finds `ScriptExt` in every file name
that `GetMigrFileName` writes. -/
theorem ext_of_GetMigrFileName (m : Migrator) (L : TimeLib) (t : Time) (act e : Str)
    (hext : m.ScriptExt = '.' :: e) (he : ∀ c ∈ e, c ≠ '.' ∧ c ≠ '/') :
    filepathExt (m.GetMigrFileName L t act) = m.ScriptExt := by
  unfold Migrator.GetMigrFileName
  rw [hext]
  exact filepathExt_of_ext _ e he

/-! ## Completeness of the listing in direction up -/

theorem records_names (m : Migrator) (L : TimeLib) (entries : List DirEntry)
    (hparse : allParse m L entries) :
    (records m L entries).map (fun f => f.Name)
      = (entries.filter (fun e => !e.isDir)).map (fun e => e.name) := by
  induction entries with
  | nil => simp [records]
  | cons e es ih =>
    have hes : allParse m L es := fun x hx => hparse x (List.mem_cons_of_mem _ hx)
    have ih1 := ih hes
    unfold records at ih1 ⊢
    cases hd : e.isDir
    · have hp := hparse e (List.mem_cons_self _ _) hd
      cases hn : NewMigrFile L e.name m.DateFormat m.FilePartSep with
      | error err => rw [hn] at hp; simp [Except.toBool] at hp
      | ok f =>
        simp only [Except.toOption] at ih1
        simp [List.filterMap_cons, hd, hn, Except.toOption, ih1,
          NewMigrFile_name L e.name _ _ f hn]
    · simp [List.filterMap_cons, hd, ih1]

/-- Listed from the zero time in direction `MG_UP`, a directory whose
regular-file names all parse gives a rearrangement of the records of its
regular files: one record for each of them, under its name, and nothing for a
subdirectory. -/
theorem up_listing_from_zero_complete (m : Migrator) (L : TimeLib) (fs : FS)
    (entries : List DirEntry)
    (hdir : osReadDir fs (m.GetMigrFullFileName MG_UP []) = .ok entries)
    (hparse : allParse m L entries) :
    ∃ files, m.NewFileList L fs Time.zero MG_UP = .ok files
      ∧ files.Perm (records m L entries)
      ∧ (files.map (fun f => f.Name)).Perm
          ((entries.filter (fun e => !e.isDir)).map (fun e => e.name)) := by
  have hk : kept m L Time.zero MG_UP entries = records m L entries := by
    unfold kept
    rw [List.filter_eq_self]
    intro f _
    rw [skipFile_up]
    simp
  refine ⟨_, NewFileList_up m L fs Time.zero entries hdir hparse, ?_, ?_⟩
  · rw [hk]
    exact sortSort_perm _ _
  · rw [hk, ← records_names m L entries hparse]
    exact (sortSort_perm _ _).map _

/-! ## Writing files -/

theorem lookup_cons (p q : Str) (n : Node) (nodes : List (Str × Node)) :
    FS.lookup ⟨(p, n) :: nodes⟩ q = if q = p then some n else FS.lookup ⟨nodes⟩ q := by
  unfold FS.lookup
  by_cases h : q = p
  · simp [List.lookup, h]
  · have hb : (q == p) = false := by simpa using h
    simp [List.lookup, h, hb]

theorem nodeAt_cons (p q : Str) (n : Node) (nodes : List (Str × Node)) :
    FS.nodeAt ⟨(p, n) :: nodes⟩ q
      = if q = ['/'] ∨ q = ['.'] then some .dir
        else if q = p then some n else FS.lookup ⟨nodes⟩ q := by
  unfold FS.nodeAt
  rw [lookup_cons]

/-- Where a file or nothing stands, there is neither the root nor the working
directory, and the node is the one bound to the path. -/
theorem nodeAt_plain (fs : FS) (r : Str)
    (hk : fs.nodeAt r = none ∨ ∃ old, fs.nodeAt r = some (.file old)) :
    ¬ (r = ['/'] ∨ r = ['.']) ∧ fs.lookup r = fs.nodeAt r := by
  have hn : ¬ (r = ['/'] ∨ r = ['.']) := by
    intro hc
    unfold FS.nodeAt at hk
    rw [if_pos hc] at hk
    rcases hk with h | ⟨old, h⟩ <;> simp at h
  refine ⟨hn, ?_⟩
  unfold FS.nodeAt
  rw [if_neg hn]

theorem nodeAt_write (fs : FS) (r data q : Str)
    (hk : fs.nodeAt r = none ∨ ∃ old, fs.nodeAt r = some (.file old)) :
    FS.nodeAt ⟨(r, .file data) :: fs.nodes⟩ q
      = if q = r then some (.file data) else fs.nodeAt q := by
  obtain ⟨hn, _⟩ := nodeAt_plain fs r hk
  rw [nodeAt_cons]
  by_cases hq : q = r
  · rw [if_pos hq, hq, if_neg hn, if_pos rfl]
  · rw [if_neg hq, if_neg hq]
    rfl

/-- Writing a file where a file or nothing stood changes the walk down a path
only where the file is new and the path needs a directory there: the error,
that nothing is there, becomes the error that no directory is there. -/
theorem walk_write (fs : FS) (r data : Str)
    (hk : fs.nodeAt r = none ∨ ∃ old, fs.nodeAt r = some (.file old))
    (xs : List Str) (cur : Str) :
    FS.walk ⟨(r, .file data) :: fs.nodes⟩ cur xs = fs.walk cur xs
    ∨ (fs.nodeAt r = none ∧ fs.walk cur xs = .fail .notExist
        ∧ FS.walk ⟨(r, .file data) :: fs.nodes⟩ cur xs = .fail .ioError) := by
  obtain ⟨hn, hlr⟩ := nodeAt_plain fs r hk
  induction xs generalizing cur with
  | nil => exact Or.inl rfl
  | cons x rest ih =>
    simp only [FS.walk]
    by_cases hx : x = ['.', '.']
    · rw [if_pos hx, if_pos hx, nodeAt_write fs r data _ hk]
      by_cases hu : FS.up cur = r
      · rw [if_pos hu]
        have h1 : ¬ (some (Node.file data) = some Node.dir) := by simp
        have h2 : ¬ (fs.nodeAt (FS.up cur) = some Node.dir) := by
          rw [hu]
          rcases hk with h | ⟨old, h⟩ <;> rw [h] <;> simp
        rw [if_neg h1, if_neg h2]
        exact Or.inl rfl
      · rw [if_neg hu]
        by_cases hd : fs.nodeAt (FS.up cur) = some Node.dir
        · rw [if_pos hd, if_pos hd]
          exact ih _
        · rw [if_neg hd, if_neg hd]
          exact Or.inl rfl
    · rw [if_neg hx, if_neg hx]
      by_cases hlen : 255 < FS.byteLen x
      · rw [if_pos hlen, if_pos hlen]
        exact Or.inl rfl
      · rw [if_neg hlen, if_neg hlen, lookup_cons]
        by_cases hc : FS.dirPrefix cur ++ x = r
        · rw [if_pos hc, hc, hlr]
          rcases hk with h | ⟨old, h⟩
          · rw [h]
            by_cases hrest : rest = []
            · simp [hrest]
            · right
              simp [hrest, h]
          · rw [h]
            exact Or.inl rfl
        · rw [if_neg hc]
          show (match fs.lookup (FS.dirPrefix cur ++ x) with
            | some (.link dest) => Walk.via cur dest rest
            | some .dir => FS.walk ⟨(r, .file data) :: fs.nodes⟩ (FS.dirPrefix cur ++ x) rest
            | some (.file _) =>
              if rest = [] then Walk.found (FS.dirPrefix cur ++ x) else Walk.fail Error.ioError
            | none =>
              if rest = [] then Walk.found (FS.dirPrefix cur ++ x)
              else Walk.fail Error.notExist) = _ ∨ _
          cases hl : fs.lookup (FS.dirPrefix cur ++ x) with
          | none => exact Or.inl rfl
          | some v =>
            cases v with
            | file d => exact Or.inl rfl
            | link d => exact Or.inl rfl
            | dir =>
              dsimp only
              rcases ih (FS.dirPrefix cur ++ x) with h | ⟨h0, h1, h2⟩
              · left
                rw [h]
              · right
                exact ⟨h0, by rw [hl] at *; exact h1, h2⟩

theorem resolveAux_write (fs : FS) (r data : Str)
    (hk : fs.nodeAt r = none ∨ ∃ old, fs.nodeAt r = some (.file old)) (n : Nat) :
    ∀ (cur : Str) (xs : List Str),
      FS.resolveAux ⟨(r, .file data) :: fs.nodes⟩ n cur xs = fs.resolveAux n cur xs
      ∨ (fs.nodeAt r = none ∧ fs.resolveAux n cur xs = .error .notExist
          ∧ FS.resolveAux ⟨(r, .file data) :: fs.nodes⟩ n cur xs = .error .ioError) := by
  induction n with
  | zero => intro cur xs; exact Or.inl rfl
  | succ n ih =>
    intro cur xs
    simp only [FS.resolveAux]
    rcases walk_write fs r data hk xs cur with h | ⟨h0, h1, h2⟩
    · rw [h]
      cases fs.walk cur xs with
      | found q => exact Or.inl rfl
      | fail err => exact Or.inl rfl
      | via dir dest rest => exact ih _ _
    · rw [h1, h2]
      exact Or.inr ⟨h0, rfl, rfl⟩

/-- Writing a file where a file or nothing stood leaves every path leading
where it led, but for a path that needs a directory where the file is new. -/
theorem resolve_write (fs : FS) (r data : Str)
    (hk : fs.nodeAt r = none ∨ ∃ old, fs.nodeAt r = some (.file old)) (p : Str) :
    FS.resolve ⟨(r, .file data) :: fs.nodes⟩ p = fs.resolve p
    ∨ (fs.nodeAt r = none ∧ fs.resolve p = .error .notExist
        ∧ FS.resolve ⟨(r, .file data) :: fs.nodes⟩ p = .error .ioError) := by
  unfold FS.resolve
  by_cases h1 : p = []
  · rw [if_pos h1, if_pos h1]
    exact Or.inl rfl
  · rw [if_neg h1, if_neg h1]
    by_cases h2 : 4095 < FS.byteLen p
    · rw [if_pos h2, if_pos h2]
      exact Or.inl rfl
    · rw [if_neg h2, if_neg h2]
      exact resolveAux_write fs r data hk 41 _ _

theorem resolve_write_ok (fs : FS) (r data : Str)
    (hk : fs.nodeAt r = none ∨ ∃ old, fs.nodeAt r = some (.file old)) (p q : Str)
    (h : fs.resolve p = .ok q) :
    FS.resolve ⟨(r, .file data) :: fs.nodes⟩ p = .ok q := by
  rcases resolve_write fs r data hk p with h1 | ⟨_, h1, _⟩
  · rw [h1, h]
  · rw [h] at h1
    simp at h1

/-- Replacing the content of a file leaves every path leading where it led. -/
theorem resolve_overwrite (fs : FS) (r data old p : Str)
    (ho : fs.nodeAt r = some (.file old)) :
    FS.resolve ⟨(r, .file data) :: fs.nodes⟩ p = fs.resolve p := by
  rcases resolve_write fs r data (Or.inr ⟨old, ho⟩) p with h1 | ⟨h0, _, _⟩
  · exact h1
  · rw [ho] at h0
    simp at h0

/-- What a successful `os.WriteFile` has found and done: the path led to a
place where a file or nothing stood, and that place now holds the data. -/
theorem osWriteFile_ok (fs fs1 : FS) (name data : Str)
    (h : osWriteFile fs name data = .ok fs1) :
    ∃ q, fs.resolve name = .ok q ∧ fs1 = ⟨(q, .file data) :: fs.nodes⟩
      ∧ (fs.nodeAt q = none ∨ ∃ old, fs.nodeAt q = some (.file old)) := by
  unfold osWriteFile at h
  cases hr : fs.resolve name with
  | error err => rw [hr] at h; simp at h
  | ok q =>
    rw [hr] at h
    dsimp only at h
    refine ⟨q, rfl, ?_⟩
    cases hn : fs.nodeAt q with
    | none =>
      rw [hn] at h
      simp only [Except.ok.injEq] at h
      exact ⟨h.symm, Or.inl rfl⟩
    | some v =>
      rw [hn] at h
      cases v with
      | dir => simp at h
      | link d => simp at h
      | file old =>
        simp only [Except.ok.injEq] at h
        exact ⟨h.symm, Or.inr ⟨old, rfl⟩⟩

theorem osWriteFile_succeeds (fs : FS) (name data q old : Str)
    (hr : fs.resolve name = .ok q) (hold : fs.nodeAt q = some (.file old)) :
    osWriteFile fs name data = .ok ⟨(q, .file data) :: fs.nodes⟩ := by
  unfold osWriteFile
  rw [hr]
  dsimp only
  rw [hold]

/-- After a successful `os.WriteFile` the path leads where it led before, and
the file there holds the data. -/
theorem osWriteFile_after (fs fs1 : FS) (name data : Str)
    (h : osWriteFile fs name data = .ok fs1) :
    ∃ q, fs1.resolve name = .ok q ∧ fs1.nodeAt q = some (.file data) := by
  obtain ⟨q, hr, hfs, hk⟩ := osWriteFile_ok fs fs1 name data h
  refine ⟨q, ?_, ?_⟩
  · rw [hfs]
    exact resolve_write_ok fs q data hk name q hr
  · rw [hfs, nodeAt_write fs q data q hk, if_pos rfl]

theorem GetLastMigrFileName_of_lookup (m : Migrator) (fs : FS) (q s : Str)
    (hr : fs.resolve (filepathJoin [m.Dir, m.PosFileName]) = .ok q)
    (h : fs.nodeAt q = some (.file s)) :
    m.GetLastMigrFileName fs = .ok s := by
  simp [Migrator.GetLastMigrFileName, osStat, osReadFile, hr, h]

theorem lookup_of_GetLastMigrFileName (m : Migrator) (fs : FS) (s : Str)
    (h : m.GetLastMigrFileName fs = .ok s) :
    ∃ q, fs.resolve (filepathJoin [m.Dir, m.PosFileName]) = .ok q
      ∧ fs.nodeAt q = some (.file s) := by
  unfold Migrator.GetLastMigrFileName osStat osReadFile at h
  dsimp only at h
  cases hp : fs.resolve (filepathJoin [m.Dir, m.PosFileName]) with
  | error err => rw [hp] at h; simp at h
  | ok q =>
    rw [hp] at h
    refine ⟨q, rfl, ?_⟩
    dsimp only at h
    cases hl : fs.nodeAt q with
    | none => rw [hl] at h; simp at h
    | some n =>
      rw [hl] at h
      cases n with
      | dir => simp at h
      | link d => simp at h
      | file d =>
        simp only [Except.ok.injEq] at h
        rw [h]

/-- C13: after `SetLastMigrFileName s` has succeeded, on any file system and
whatever the position file held before, `GetLastMigrFileName` returns exactly
`s`, and `GetLastMigrFile` returns what `NewMigrFile` makes of `s`: when `s`
parses, a record whose `Name` is `s`. -/
theorem marker_roundtrip (m : Migrator) (L : TimeLib) (fs fs1 : FS) (s : Str)
    (hset : m.SetLastMigrFileName fs s = .ok fs1) :
    m.GetLastMigrFileName fs1 = .ok s
    ∧ m.GetLastMigrFile L fs1 = NewMigrFile L s m.DateFormat m.FilePartSep
    ∧ ∀ r, NewMigrFile L s m.DateFormat m.FilePartSep = .ok r →
        m.GetLastMigrFile L fs1 = .ok r ∧ r.Name = s := by
  have hw : osWriteFile fs (filepathJoin [m.Dir, m.PosFileName]) s = .ok fs1 := by
    unfold Migrator.SetLastMigrFileName at hset
    split at hset
    · simp at hset
    · rename_i fs2 hw
      simp only [Except.ok.injEq] at hset
      rw [← hset]
      exact hw
  obtain ⟨q, hq1, hq2⟩ := osWriteFile_after fs fs1 _ s hw
  have hget : m.GetLastMigrFileName fs1 = .ok s :=
    GetLastMigrFileName_of_lookup m fs1 q s hq1 hq2
  have hfile : m.GetLastMigrFile L fs1 = NewMigrFile L s m.DateFormat m.FilePartSep := by
    unfold Migrator.GetLastMigrFile
    rw [hget]
    dsimp only
    cases NewMigrFile L s m.DateFormat m.FilePartSep <;> rfl
  exact ⟨hget, hfile, fun r hr => ⟨by rw [hfile, hr], NewMigrFile_name L s _ _ r hr⟩⟩

/-- C13, witness: the position file of the tests holds `act1`; after
`SetLastMigrFileName act2` it holds `act2`. -/
theorem marker_roundtrip_witness :
    dbMigrator.GetLastMigrFileName (testFS (some act1)) = .ok act1
    ∧ dbMigrator.GetLastMigrFileName
        ⟨("/db/last_mig.pos".toList, Node.file act2) :: (testFS (some act1)).nodes⟩ = .ok act2
    ∧ dbMigrator.GetLastMigrFile goTime
        ⟨("/db/last_mig.pos".toList, Node.file act2) :: (testFS (some act1)).nodes⟩
        = .ok recAct2 :=
  have H := marker_roundtrip dbMigrator goTime (testFS (some act1))
    ⟨("/db/last_mig.pos".toList, Node.file act2) :: (testFS (some act1)).nodes⟩ act2 (by decide)
  ⟨by decide, H.1, (H.2.2 recAct2 (by decide)).1⟩

/-- C16: for every directory string, `NewMigrator` keeps it as `Dir` and sets
the defaults: the date format `20060102150405` of 14 digits, the separator
`_`, the extension `.sql`, the position file `last_mig.pos` and the
sub-directories `up` and `down`; `GetUpDir` and `GetDownDir` are the directory
joined with `up` and with `down`, as in `dir1/up` and `/home/u1/dir1/down`. -/
theorem NewMigrator_defaults (dir : Str) :
    (NewMigrator dir).Dir = dir
    ∧ (NewMigrator dir).DateFormat = "20060102150405".toList
    ∧ (NewMigrator dir).DateFormat.length = 14
    ∧ (NewMigrator dir).FilePartSep = "_".toList
    ∧ (NewMigrator dir).ScriptExt = ".sql".toList
    ∧ (NewMigrator dir).PosFileName = "last_mig.pos".toList
    ∧ (NewMigrator dir).UpDir = "up".toList
    ∧ (NewMigrator dir).DownDir = "down".toList
    ∧ (NewMigrator dir).GetUpDir = filepathJoin [dir, "up".toList]
    ∧ (NewMigrator dir).GetDownDir = filepathJoin [dir, "down".toList]
    ∧ (NewMigrator "dir1".toList).GetUpDir = "dir1/up".toList
    ∧ (NewMigrator "/home/u1/dir1".toList).GetDownDir = "/home/u1/dir1/down".toList
    ∧ goTime.Format (dateUTC 2024 12 31 23 59 59 0) (NewMigrator dir).DateFormat
        = "20241231235959".toList := by
  refine ⟨rfl, rfl, ?_, rfl, rfl, rfl, rfl, rfl, rfl, rfl, by decide, by decide, ?_⟩
  · show DEF_FILE_DATE_FORMAT.length = 14
    decide
  show goTime.Format (dateUTC 2024 12 31 23 59 59 0) DEF_FILE_DATE_FORMAT = _
  decide

/-- C18: when the marker parses to a pivot `P` and all regular-file names of
the `down` directory parse, `Down` returns a record of the greatest position
among the records at or before `P` as soon as there is such a record; a record
exactly at `P` is eligible and makes `Down` return a record at `P`; and `Down`
fails with `ErNoMigration` exactly when every record is strictly after `P`. -/
theorem down_greatest_at_or_before_pivot (m : Migrator) (L : TimeLib) (fs : FS)
    (mg : MigrFile) (entries : List DirEntry)
    (hmarker : m.GetLastMigrFile L fs = .ok mg)
    (hdir : osReadDir fs (m.GetMigrFullFileName MG_DOWN []) = .ok entries)
    (hparse : allParse m L entries) :
    ((∃ r1 ∈ records m L entries, r1.Pos.After mg.Pos = false) →
      ∃ r, m.Down L fs = .ok r ∧ r ∈ records m L entries ∧ r.Pos.After mg.Pos = false
        ∧ ∀ r1 ∈ records m L entries, r1.Pos.After mg.Pos = false → r.Pos.Before r1.Pos = false)
    ∧ ((∃ r1 ∈ records m L entries, r1.Pos = mg.Pos) →
      ∃ r, m.Down L fs = .ok r ∧ r.Pos = mg.Pos)
    ∧ (m.Down L fs = .error Error.ErNoMigration
        ↔ ∀ r ∈ records m L entries, r.Pos.After mg.Pos = true) := by
  have key : ∀ r1 ∈ records m L entries, r1.Pos.After mg.Pos = false →
      ∃ r, m.Down L fs = .ok r ∧ r ∈ records m L entries ∧ r.Pos.After mg.Pos = false
        ∧ ∀ r2 ∈ records m L entries, r2.Pos.After mg.Pos = false →
            r.Pos.Before r2.Pos = false := by
    intro r1 hr1 hb
    rcases Down_cases m L fs mg entries hmarker hdir hparse with ⟨h, hdn, hmem, hmax⟩ | ⟨hk, _⟩
    · have hm := (mem_kept_down m L mg.Pos entries h).mp hmem
      exact ⟨h, hdn, hm.1, hm.2, fun r2 hr2 hb2 =>
        hmax r2 ((mem_kept_down m L mg.Pos entries r2).mpr ⟨hr2, hb2⟩)⟩
    · have := (mem_kept_down m L mg.Pos entries r1).mpr ⟨hr1, hb⟩
      rw [hk] at this
      simp at this
  refine ⟨fun ⟨r1, hr1, hb⟩ => key r1 hr1 hb, ?_, ?_⟩
  · rintro ⟨r1, hr1, heq⟩
    have hb : r1.Pos.After mg.Pos = false := by simp [Time.After, heq]
    obtain ⟨r, hdn, _, hle, hmax⟩ := key r1 hr1 hb
    refine ⟨r, hdn, ?_⟩
    have hge := hmax r1 hr1 hb
    rw [heq] at hge
    cases hr : r.Pos with
    | mk a =>
      cases hp : mg.Pos with
      | mk b =>
        rw [hr, hp] at hle hge
        simp only [Time.After, Time.Before, decide_eq_false_iff_not] at hle hge
        have : a = b := by omega
        rw [this]
  · constructor
    · intro herr r hr
      cases hb : r.Pos.After mg.Pos with
      | true => rfl
      | false =>
        obtain ⟨r0, hdn, _⟩ := key r hr hb
        rw [hdn] at herr
        simp at herr
    · intro hall
      rcases Down_cases m L fs mg entries hmarker hdir hparse with ⟨h, _, hmem, _⟩ | ⟨_, hdn⟩
      · have hm := (mem_kept_down m L mg.Pos entries h).mp hmem
        rw [hall h hm.1] at hm
        simp at hm
      · exact hdn

/-- C18, witness: the directory of `TestDown` with the marker at `act2`: `Down`
returns `act2`, the record at the pivot. -/
theorem down_greatest_at_or_before_pivot_witness :
    ∃ r, dbMigrator.Down goTime (testFS (some act2)) = .ok r ∧ r.Pos = recAct2.Pos :=
  (down_greatest_at_or_before_pivot dbMigrator goTime (testFS (some act2)) recAct2 testEntries
    (by decide) (by decide) (by decide)).2.1 ⟨recAct2, by decide, rfl⟩

/-- C19: when the marker parses to the zero time, `Up` filters nothing: any
record it returns is a record of the `up` directory that no record of the
directory is before, be it at the pivot or before it, and `Up` returns a record
as soon as the directory has one; for every other pivot a record returned by
`Up` is never at the pivot. -/
theorem up_at_zero_pivot_filters_nothing (m : Migrator) (L : TimeLib) (fs : FS)
    (mg : MigrFile) (entries : List DirEntry)
    (hmarker : m.GetLastMigrFile L fs = .ok mg)
    (hdir : osReadDir fs (m.GetMigrFullFileName MG_UP []) = .ok entries)
    (hparse : allParse m L entries) :
    (mg.Pos = Time.zero →
      (∀ r, m.Up L fs = .ok r →
        r ∈ records m L entries ∧ ∀ r1 ∈ records m L entries, r1.Pos.Before r.Pos = false)
      ∧ (records m L entries ≠ [] → ∃ r, m.Up L fs = .ok r))
    ∧ (mg.Pos ≠ Time.zero → ∀ r, m.Up L fs = .ok r → r.Pos ≠ mg.Pos) := by
  constructor
  · intro hz
    rcases Up_cases m L fs mg entries hmarker hdir hparse with ⟨h, hup, hmem, hmin⟩ | ⟨hk, hup⟩
    · rw [hz] at hmem hmin
      refine ⟨?_, fun _ => ⟨h, hup⟩⟩
      intro r hr
      rw [hup] at hr
      simp only [Except.ok.injEq] at hr
      subst hr
      exact ⟨(mem_kept_up_zero m L entries h).mp hmem, fun r1 hr1 =>
        hmin r1 ((mem_kept_up_zero m L entries r1).mpr hr1)⟩
    · rw [hz] at hk
      refine ⟨?_, ?_⟩
      · intro r hr
        rw [hup] at hr
        simp at hr
      · intro hne
        cases hrec : records m L entries with
        | nil => exact absurd hrec hne
        | cons r0 rs =>
          have : r0 ∈ kept m L Time.zero MG_UP entries :=
            (mem_kept_up_zero m L entries r0).mpr (by rw [hrec]; exact List.mem_cons_self _ _)
          rw [hk] at this
          simp at this
  · intro hnz r hr
    rcases Up_cases m L fs mg entries hmarker hdir hparse with ⟨h, hup, hmem, _⟩ | ⟨_, hup⟩
    · rw [hup] at hr
      simp only [Except.ok.injEq] at hr
      subst hr
      have hb := ((mem_kept_up m L mg.Pos hnz entries h).mp hmem).2
      intro heq
      rw [heq] at hb
      simp [Time.Before] at hb
    · rw [hup] at hr
      simp at hr

/-- C19, witness: the marker `00010101000000_init.sql` parses to the zero time,
and `Up` returns the record of that very name, the smallest of the directory,
whose position is the pivot. -/
theorem up_at_zero_pivot_filters_nothing_witness :
    dbMigrator.Up goTime zeroPivotFS = .ok recInit
    ∧ recInit.Pos = Time.zero
    ∧ recInit ∈ records dbMigrator goTime [⟨initName, false⟩, ⟨act1, false⟩]
    ∧ ∀ r1 ∈ records dbMigrator goTime [⟨initName, false⟩, ⟨act1, false⟩],
        r1.Pos.Before recInit.Pos = false :=
  have H := ((up_at_zero_pivot_filters_nothing dbMigrator goTime zeroPivotFS recInit
    [⟨initName, false⟩, ⟨act1, false⟩] (by decide) (by decide) (by decide)).1 rfl).1
    recInit (by decide)
  ⟨by decide, rfl, H.1, H.2⟩

/-! ## Names that do not parse -/

/-- C11: once the directory is read, `NewFileList` fails, for every direction
and every `fromDate`, as soon as one entry that is not a directory has a name
that does not parse, and then `NextMigration` fails too; when the names of all
entries that are not directories parse, `NewFileList` succeeds, whatever the
names of the subdirectories. -/
theorem listing_fails_on_unparsable_name (m : Migrator) (L : TimeLib) (fs : FS)
    (fromDate : Time) (mgType : MigType) (entries : List DirEntry)
    (hdir : osReadDir fs (m.GetMigrFullFileName mgType []) = .ok entries) :
    ((∃ e ∈ entries, e.isDir = false
        ∧ (NewMigrFile L e.name m.DateFormat m.FilePartSep).toBool = false) →
      (∃ err, m.NewFileList L fs fromDate mgType = .error err)
      ∧ (∃ err, m.NextMigration L fs mgType = .error err))
    ∧ (allParse m L entries → ∃ files, m.NewFileList L fs fromDate mgType = .ok files) := by
  constructor
  · rintro ⟨e, he, hfile, hbad⟩
    have hfail : ∀ d, ∃ err, m.NewFileList L fs d mgType = .error err := by
      intro d
      unfold Migrator.NewFileList
      dsimp only
      rw [hdir]
      dsimp only
      cases hscan : Migrator.scanEntries m L d mgType entries [] with
      | error err => exact ⟨err, rfl⟩
      | ok out =>
        have hp := scanEntries_allParse m L d mgType entries [] out hscan e he hfile
        rw [hbad] at hp
        simp at hp
    refine ⟨hfail fromDate, ?_⟩
    unfold Migrator.NextMigration
    cases hm : m.GetLastMigrFile L fs with
    | error err =>
      dsimp only
      split
      · exact ⟨_, rfl⟩
      · exact ⟨_, rfl⟩
    | ok mg =>
      dsimp only
      obtain ⟨err, herr⟩ := hfail mg.Pos
      rw [herr]
      exact ⟨err, rfl⟩
  · intro hparse
    unfold Migrator.NewFileList
    dsimp only
    rw [hdir]
    dsimp only
    rw [scanEntries_eq m L fromDate mgType entries hparse []]
    dsimp only
    split
    · exact ⟨_, rfl⟩
    · exact ⟨_, rfl⟩

/-- C11, witness: an `up` directory with two scripts, the subdirectory
`archive` and the file `README.md`: the listing fails from the date of the
later script on, and so does `Up`; without `README.md` the listing succeeds. -/
theorem listing_fails_on_unparsable_name_witness :
    osReadDir strayFS (dbMigrator.GetMigrFullFileName MG_UP [])
      = .ok [⟨act1, false⟩, ⟨act4, false⟩, ⟨"README.md".toList, false⟩, ⟨"archive".toList, true⟩]
    ∧ (∃ err, dbMigrator.NewFileList goTime strayFS recAct4.Pos MG_UP = .error err)
    ∧ (∃ err, dbMigrator.NextMigration goTime strayFS MG_UP = .error err)
    ∧ (∃ files, dbMigrator.NewFileList goTime subdirFS Time.zero MG_UP = .ok files) :=
  have H := (listing_fails_on_unparsable_name dbMigrator goTime strayFS recAct4.Pos MG_UP
    [⟨act1, false⟩, ⟨act4, false⟩, ⟨"README.md".toList, false⟩, ⟨"archive".toList, true⟩]
    (by decide)).1 ⟨⟨"README.md".toList, false⟩, by decide, rfl, by decide⟩
  ⟨by decide, H.1, H.2,
   (listing_fails_on_unparsable_name dbMigrator goTime subdirFS Time.zero MG_UP
    [⟨act1, false⟩, ⟨act4, false⟩, ⟨"archive".toList, true⟩] (by decide)).2 (by decide)⟩

theorem splitLoop_head (sep : Str) (hsep : sep ≠ []) (s cur : Str) :
    ∃ rest, splitLoop sep s 0 cur = (cur.reverse ++ beforeFirstSep s sep) :: rest := by
  induction s generalizing cur with
  | nil => exact ⟨[], by simp [splitLoop, beforeFirstSep]⟩
  | cons c cs ih =>
    by_cases hp : sep.isPrefixOf (c :: cs) = true
    · refine ⟨splitLoop sep cs (sep.length - 1) [], ?_⟩
      rw [splitLoop, if_pos hp, beforeFirstSep, if_neg hsep, if_pos hp, List.append_nil]
    · obtain ⟨rest, hrest⟩ := ih (c :: cur)
      refine ⟨rest, ?_⟩
      rw [splitLoop, if_neg hp, hrest, beforeFirstSep, if_neg hsep, if_neg hp]
      simp

theorem stringsSplit_head (s sep : Str) :
    stringsSplit s sep = [] ∨ ∃ rest, stringsSplit s sep = beforeFirstSep s sep :: rest := by
  unfold stringsSplit
  by_cases hsep : sep = []
  · rw [if_pos hsep]
    cases s with
    | nil => left; rfl
    | cons c cs => right; exact ⟨cs.map (fun c => [c]), by simp [beforeFirstSep, hsep]⟩
  · rw [if_neg hsep]
    right
    obtain ⟨rest, h⟩ := splitLoop_head sep hsep s []
    exact ⟨rest, by simpa using h⟩

/-- C12: `NewMigrFile` returns an error whenever the part of the file name
without its extension that stands before the first separator is not a date in
`dateFormat`; with the default date format it returns an error for every file
name that is empty without its extension, whatever the separator. -/
theorem NewMigrFile_fails_on_bad_date (L : TimeLib) (name dateFormat partSep : Str) :
    (L.Parse dateFormat (beforeFirstSep (stripExt name) partSep) = none →
      ∃ err, NewMigrFile L name dateFormat partSep = .error err)
    ∧ (stripExt name = [] →
      ∃ err, NewMigrFile goTime name DEF_FILE_DATE_FORMAT partSep = .error err) := by
  have key : ∀ (L1 : TimeLib) (fmt : Str),
      L1.Parse fmt (beforeFirstSep (stripExt name) partSep) = none →
      ∃ err, NewMigrFile L1 name fmt partSep = .error err := by
    intro L1 fmt hnone
    unfold NewMigrFile
    dsimp only
    rcases stringsSplit_head (stripExt name) partSep with h | ⟨rest, h⟩
    · unfold stripExt at h
      rw [h]
      exact ⟨_, rfl⟩
    · unfold stripExt at h hnone
      rw [h]
      dsimp only
      rw [hnone]
      exact ⟨_, rfl⟩
  refine ⟨key L dateFormat, ?_⟩
  intro hempty
  apply key
  have hb : beforeFirstSep [] partSep = [] := by simp [beforeFirstSep]
  rw [hempty, hb]
  decide

/-- C12, witness: with the defaults, `.sql` and the empty name are empty
without extension and give an error, and so does `act1.sql`, where `act1` is
not a date. -/
theorem NewMigrFile_fails_on_bad_date_witness :
    (∃ err, NewMigrFile goTime ".sql".toList DEF_FILE_DATE_FORMAT DEF_FILE_PART_SEP = .error err)
    ∧ (∃ err, NewMigrFile goTime [] DEF_FILE_DATE_FORMAT DEF_FILE_PART_SEP = .error err)
    ∧ (∃ err, NewMigrFile goTime "act1_x.sql".toList DEF_FILE_DATE_FORMAT DEF_FILE_PART_SEP
        = .error err) :=
  ⟨(NewMigrFile_fails_on_bad_date goTime ".sql".toList DEF_FILE_DATE_FORMAT
      DEF_FILE_PART_SEP).2 (by decide),
   (NewMigrFile_fails_on_bad_date goTime [] DEF_FILE_DATE_FORMAT DEF_FILE_PART_SEP).2 (by decide),
   (NewMigrFile_fails_on_bad_date goTime "act1_x.sql".toList DEF_FILE_DATE_FORMAT
      DEF_FILE_PART_SEP).1 (by decide)⟩

/-! ## Adding a migration -/

theorem GetLastMigrFileName_congr (m : Migrator) (fs fs1 : FS) (q : Str)
    (hr : fs.resolve (filepathJoin [m.Dir, m.PosFileName]) = .ok q)
    (hr1 : fs1.resolve (filepathJoin [m.Dir, m.PosFileName]) = .ok q)
    (hn : fs1.nodeAt q = fs.nodeAt q) :
    m.GetLastMigrFileName fs1 = m.GetLastMigrFileName fs := by
  unfold Migrator.GetLastMigrFileName osStat osReadFile
  dsimp only
  rw [hr, hr1]
  dsimp only
  rw [hn]

theorem GetLastMigrFileName_error (m : Migrator) (fs : FS) (err : Error)
    (hr : fs.resolve (filepathJoin [m.Dir, m.PosFileName]) = .error err) :
    m.GetLastMigrFileName fs = .error err := by
  simp [Migrator.GetLastMigrFileName, osStat, hr]

theorem Add_eq (m : Migrator) (L : TimeLib) (fs : FS) (t : Time) (act : Str)
    (mgType : MigType) (fileContent : Str) :
    m.Add L fs t act mgType fileContent
      = osWriteFile fs (m.GetMigrFullFileName mgType (m.GetMigrFileName L t act)) fileContent := by
  unfold Migrator.Add
  dsimp only
  cases osWriteFile fs (m.GetMigrFullFileName mgType (m.GetMigrFileName L t act)) fileContent
    <;> rfl

/-- C15 (as amended): whenever the path of the new script and the path of the
position file do not lead to the same place, links followed, a name that
`GetLastMigrFileName` returns before `Add` it returns after it, and an error
stays an error, whether `Add` succeeds or fails: the result is the same, or
the error that nothing is there has become another error, `Add` having created
a file where the path of the position file needs a directory. -/
theorem Add_keeps_marker (m : Migrator) (L : TimeLib) (fs : FS) (t : Time) (act : Str)
    (mgType : MigType) (fileContent : Str)
    (hne : ∀ q, fs.resolve (m.GetMigrFullFileName mgType (m.GetMigrFileName L t act)) = .ok q →
      fs.resolve (filepathJoin [m.Dir, m.PosFileName]) ≠ .ok q) :
    (∀ s, m.GetLastMigrFileName fs = .ok s →
      m.GetLastMigrFileName (fsAfter fs (m.Add L fs t act mgType fileContent)) = .ok s)
    ∧ (m.GetLastMigrFileName (fsAfter fs (m.Add L fs t act mgType fileContent))
        = m.GetLastMigrFileName fs
      ∨ (m.GetLastMigrFileName fs = .error Error.notExist
        ∧ m.GetLastMigrFileName (fsAfter fs (m.Add L fs t act mgType fileContent))
          = .error Error.ioError)) := by
  have key : m.GetLastMigrFileName (fsAfter fs (m.Add L fs t act mgType fileContent))
        = m.GetLastMigrFileName fs
      ∨ (m.GetLastMigrFileName fs = .error Error.notExist
        ∧ m.GetLastMigrFileName (fsAfter fs (m.Add L fs t act mgType fileContent))
          = .error Error.ioError) := by
    rw [Add_eq]
    cases hw : osWriteFile fs (m.GetMigrFullFileName mgType (m.GetMigrFileName L t act))
        fileContent with
    | error err => exact Or.inl rfl
    | ok fs1 =>
      show m.GetLastMigrFileName fs1 = _ ∨ (_ ∧ m.GetLastMigrFileName fs1 = _)
      obtain ⟨r, hr, hfs, hk⟩ := osWriteFile_ok fs fs1 _ _ hw
      rcases resolve_write fs r fileContent hk (filepathJoin [m.Dir, m.PosFileName])
        with h1 | ⟨_, h1, h2⟩
      · left
        cases hp : fs.resolve (filepathJoin [m.Dir, m.PosFileName]) with
        | error err =>
          rw [GetLastMigrFileName_error m fs err hp,
            GetLastMigrFileName_error m fs1 err (by rw [hfs, h1, hp])]
        | ok q =>
          have hq : q ≠ r := fun h0 => hne r hr (by rw [hp, h0])
          apply GetLastMigrFileName_congr m fs fs1 q hp (by rw [hfs, h1, hp])
          rw [hfs, nodeAt_write fs r fileContent q hk, if_neg hq]
      · right
        exact ⟨GetLastMigrFileName_error m fs _ h1,
          GetLastMigrFileName_error m fs1 _ (by rw [hfs]; exact h2)⟩
  refine ⟨?_, key⟩
  intro s hs
  rcases key with h | ⟨h, _⟩
  · rw [h, hs]
  · rw [hs] at h
    simp at h

/-- C15, witness: with the defaults and the marker at `act1`, adding the script
`20240101000000_act1.sql` to `up` succeeds and the marker is still `act1`. -/
theorem Add_keeps_marker_witness :
    (dbMigrator.Add goTime (testFS (some act1)) (dateUTC 2024 1 1 0 0 0 0) "act1".toList MG_UP
        "abc".toList).toBool = true
    ∧ dbMigrator.GetLastMigrFileName (testFS (some act1)) = .ok act1
    ∧ dbMigrator.GetLastMigrFileName (fsAfter (testFS (some act1))
        (dbMigrator.Add goTime (testFS (some act1)) (dateUTC 2024 1 1 0 0 0 0) "act1".toList
          MG_UP "abc".toList)) = .ok act1 :=
  ⟨by decide, by decide,
   (Add_keeps_marker dbMigrator goTime (testFS (some act1)) (dateUTC 2024 1 1 0 0 0 0)
      "act1".toList MG_UP "abc".toList
      (fun _ h1 h2 => absurd (h1.trans h2.symm) (by decide))).1 act1 (by decide)⟩

/-- C15, counterexample: with the position file named `pos.sql`, adding the
label `/../../pos` writes to `/db/pos.sql`, the position file itself: before
`Add` the marker is `act1`, after it the marker is the content of the new
script.  And with the defaults, where the two paths differ, the same happens
when the path of the new script is a link to the position file. -/
theorem Add_overwrites_marker :
    posSqlMigrator.GetLastMigrFileName posSqlFS = .ok act1
    ∧ posSqlMigrator.GetMigrFileName goTime (dateUTC 2024 1 1 0 0 0 0) "/../../pos".toList
      = "20240101000000_/../../pos.sql".toList
    ∧ posSqlMigrator.GetMigrFullFileName MG_UP "20240101000000_/../../pos.sql".toList
      = "/db/pos.sql".toList
    ∧ (posSqlMigrator.Add goTime posSqlFS (dateUTC 2024 1 1 0 0 0 0) "/../../pos".toList MG_UP
        "create table t();".toList).toBool = true
    ∧ posSqlMigrator.GetLastMigrFileName (fsAfter posSqlFS
        (posSqlMigrator.Add goTime posSqlFS (dateUTC 2024 1 1 0 0 0 0) "/../../pos".toList MG_UP
          "create table t();".toList)) = .ok "create table t();".toList
    ∧ dbMigrator.GetMigrFullFileName MG_UP
        (dbMigrator.GetMigrFileName goTime (dateUTC 2024 1 1 0 0 0 0) "act1".toList)
      ≠ filepathJoin [dbMigrator.Dir, dbMigrator.PosFileName]
    ∧ dbMigrator.GetLastMigrFileName linkedFS = .ok act1
    ∧ (dbMigrator.Add goTime linkedFS (dateUTC 2024 1 1 0 0 0 0) "act1".toList MG_UP
        "create table t();".toList).toBool = true
    ∧ dbMigrator.GetLastMigrFileName (fsAfter linkedFS
        (dbMigrator.Add goTime linkedFS (dateUTC 2024 1 1 0 0 0 0) "act1".toList MG_UP
          "create table t();".toList)) = .ok "create table t();".toList := by
  decide

/-! ## The path of a new script -/

theorem pathElems_noslash (w cur : Str) (hw : '/' ∉ w) :
    pathElems w cur = [cur.reverse ++ w] := by
  induction w generalizing cur with
  | nil => simp [pathElems]
  | cons c cs ih =>
    have hc : c ≠ '/' := fun h => hw (by simp [h])
    have hcs : '/' ∉ cs := fun h => hw (List.mem_cons_of_mem _ h)
    rw [pathElems, if_neg hc, ih _ hcs]
    simp

/-- The elements of a path that ends in a slash end with the empty element,
which a name without slash written after the path replaces. -/
theorem pathElems_slash (z cur : Str) :
    ∃ init, pathElems (z ++ ['/']) cur = init ++ [[]]
      ∧ ∀ w, '/' ∉ w → pathElems (z ++ '/' :: w) cur = init ++ [w] := by
  induction z generalizing cur with
  | nil =>
    refine ⟨[cur.reverse], by simp [pathElems], ?_⟩
    intro w hw
    simp [pathElems, pathElems_noslash w [] hw]
  | cons c cs ih =>
    by_cases hc : c = '/'
    · obtain ⟨init, h1, h2⟩ := ih []
      refine ⟨cur.reverse :: init, ?_, ?_⟩
      · rw [List.cons_append, pathElems, if_pos hc, h1]; rfl
      · intro w hw
        rw [List.cons_append, pathElems, if_pos hc, h2 w hw]; rfl
    · obtain ⟨init, h1, h2⟩ := ih (c :: cur)
      refine ⟨init, ?_, ?_⟩
      · rw [List.cons_append, pathElems, if_neg hc, h1]
      · intro w hw
        rw [List.cons_append, pathElems, if_neg hc, h2 w hw]

theorem intercalate_snoc (sep : Str) (l : List Str) (f : Str) :
    List.intercalate sep (l ++ [f])
      = if l = [] then f else List.intercalate sep l ++ sep ++ f := by
  induction l with
  | nil => simp [List.intercalate]
  | cons a l ih =>
    cases l with
    | nil => simp [List.intercalate]
    | cons b l =>
      simp only [List.intercalate, List.cons_append, List.intersperse, reduceCtorEq,
        if_false] at ih ⊢
      simp only [List.flatten_cons, List.append_assoc, List.append_cancel_left_eq]
      exact ih.trans (List.append_assoc _ _ _)


theorem cleanStep_plain (rooted : Bool) (out : List Str) (f : Str) (hf : plainName f) :
    cleanStep rooted out f = f :: out := by
  unfold cleanStep
  rw [if_neg (by simp [hf.1, hf.2.2.1]), if_neg hf.2.2.2]

theorem cleanStep_nil (rooted : Bool) (out : List Str) : cleanStep rooted out [] = out := by
  simp [cleanStep]

theorem pathElems_noslash_mem (s cur : Str) (hcur : '/' ∉ cur) :
    ∀ e ∈ pathElems s cur, '/' ∉ e := by
  induction s generalizing cur with
  | nil =>
    intro e he
    simp only [pathElems, List.mem_singleton] at he
    rw [he]
    simpa using hcur
  | cons c cs ih =>
    intro e he
    unfold pathElems at he
    split at he
    · rcases List.mem_cons.mp he with he | he
      · rw [he]; simpa using hcur
      · exact ih [] (by simp) e he
    · rename_i hc
      exact ih (c :: cur) (by
        intro h
        rcases List.mem_cons.mp h with h | h
        · exact hc h.symm
        · exact hcur h) e he

theorem cleanStep_inv (rooted : Bool) (out : List Str) (e : Str) (hslash : '/' ∉ e)
    (h : ∀ x ∈ out, keptElem x) :
    ∀ x ∈ cleanStep rooted out e, keptElem x := by
  unfold cleanStep
  split
  · exact h
  · rename_i h1
    have he : keptElem e :=
      ⟨fun h0 => h1 (Or.inl h0), fun h0 => h1 (Or.inr h0), hslash⟩
    split
    · split
      · split
        · intro x hx
          rcases List.mem_cons.mp hx with hx | hx
          · rw [hx]; exact he
          · exact h x hx
        · intro x hx
          exact h x (List.mem_cons_of_mem _ hx)
      · split
        · intro x hx; simp at hx
        · intro x hx
          rw [List.mem_singleton] at hx
          rw [hx]; exact he
    · intro x hx
      rcases List.mem_cons.mp hx with hx | hx
      · rw [hx]; exact he
      · exact h x hx

theorem foldl_cleanStep_inv (rooted : Bool) (elems out : List Str)
    (hel : ∀ e ∈ elems, '/' ∉ e) (h : ∀ x ∈ out, keptElem x) :
    ∀ x ∈ elems.foldl (cleanStep rooted) out, keptElem x := by
  induction elems generalizing out with
  | nil => exact h
  | cons e es ih =>
    exact ih _ (fun x hx => hel x (List.mem_cons_of_mem _ hx))
      (cleanStep_inv rooted out e (hel e (List.mem_cons_self _ _)) h)

theorem intercalate_kept (l : List Str) (hl : l ≠ []) (h : ∀ x ∈ l, keptElem x) :
    List.intercalate ['/'] l ≠ [] ∧ List.intercalate ['/'] l ≠ ['.']
      ∧ List.intercalate ['/'] l ≠ ['/'] := by
  cases l with
  | nil => exact absurd rfl hl
  | cons x r =>
    have hx := h x (List.mem_cons_self _ _)
    cases r with
    | nil =>
      have : List.intercalate ['/'] [x] = x := by simp [List.intercalate]
      rw [this]
      refine ⟨hx.1, hx.2.1, ?_⟩
      intro h0
      exact hx.2.2 (by rw [h0]; simp)
    | cons y r =>
      have : List.intercalate ['/'] (x :: y :: r)
          = x ++ '/' :: List.intercalate ['/'] (y :: r) := by
        simp [List.intercalate, List.intersperse]
      rw [this]
      cases x with
      | nil => exact absurd rfl hx.1
      | cons c cs => simp

theorem filepathClean_eq (x : Str) (hx : x ≠ []) :
    filepathClean x
      = if (if x.head? = some '/' then ['/'] else []) ++ List.intercalate ['/']
            (((pathElems x []).foldl (cleanStep (decide (x.head? = some '/'))) []).reverse) = []
        then ['.']
        else (if x.head? = some '/' then ['/'] else []) ++ List.intercalate ['/']
            (((pathElems x []).foldl (cleanStep (decide (x.head? = some '/'))) []).reverse) := by
  unfold filepathClean
  rw [if_neg hx]



theorem filepathClean_slash_name (z f : Str) (hf : plainName f) :
    filepathClean (z ++ '/' :: f) = FS.dirPrefix (filepathClean (z ++ ['/'])) ++ f := by
  obtain ⟨init, h1, h2⟩ := pathElems_slash z []
  have hy : z ++ ['/'] ≠ [] := by simp
  have hyf : z ++ '/' :: f ≠ [] := by simp
  have hhead : (z ++ '/' :: f).head? = (z ++ ['/']).head? := by cases z <;> rfl
  have hinit : ∀ e ∈ init, '/' ∉ e := by
    intro e he
    apply pathElems_noslash_mem (z ++ ['/']) [] (by simp) e
    rw [h1]
    exact List.mem_append_left _ he
  rw [filepathClean_eq _ hy, filepathClean_eq _ hyf, hhead, h1, h2 f hf.2.1]
  simp only [List.foldl_append, List.foldl_cons, List.foldl_nil, cleanStep_nil,
    cleanStep_plain _ _ f hf, List.reverse_cons, intercalate_snoc]
  have hinv := fun (b : Bool) => foldl_cleanStep_inv b init [] hinit (by simp)
  have hnil : List.intercalate ['/'] ([] : List Str) = [] := rfl
  by_cases hr : (z ++ ['/']).head? = some '/'
  · simp only [hr, if_true, decide_True]
    have hk := hinv true
    generalize List.foldl (cleanStep true) [] init = S at hk ⊢
    by_cases hS : S.reverse = []
    · simp [hS, FS.dirPrefix, hnil, hf.1]
    · have hI := intercalate_kept S.reverse hS (fun x hx => hk x (List.mem_reverse.mp hx))
      simp [hS, FS.dirPrefix, hI.1]
  · simp only [hr, if_false, decide_False, List.nil_append]
    have hk := hinv false
    generalize List.foldl (cleanStep false) [] init = S at hk ⊢
    by_cases hS : S.reverse = []
    · simp [hS, FS.dirPrefix, hnil, hf.1]
    · have hI := intercalate_kept S.reverse hS (fun x hx => hk x (List.mem_reverse.mp hx))
      simp [hS, FS.dirPrefix, hI.1, hI.2.1, hI.2.2]

theorem filepathJoin_name (dir sub f : Str) (hf : plainName f) (hne : dir ≠ [] ∨ sub ≠ []) :
    filepathJoin [dir, sub, f] = FS.dirPrefix (filepathJoin [dir, sub, []]) ++ f := by
  cases dir with
  | cons c cs =>
    have h := filepathClean_slash_name (c :: cs ++ '/' :: sub) f hf
    simpa [filepathJoin, List.dropWhile, List.intercalate, List.intersperse] using h
  | nil =>
    cases sub with
    | nil => simp at hne
    | cons c cs =>
      have h := filepathClean_slash_name (c :: cs) f hf
      simpa [filepathJoin, List.dropWhile, List.intercalate, List.intersperse] using h

theorem pathElems_snoc (z w cur : Str) (hw : '/' ∉ w) :
    pathElems (z ++ '/' :: w) cur = pathElems z cur ++ [w] := by
  induction z generalizing cur with
  | nil => simp [pathElems, pathElems_noslash w [] hw]
  | cons c cs ih =>
    by_cases hc : c = '/'
    · rw [List.cons_append, pathElems, if_pos hc, ih, pathElems, if_pos hc]
      rfl
    · rw [List.cons_append, pathElems, if_neg hc, ih, pathElems, if_neg hc]

/-- The elements of the path of an entry of a directory are those of the
directory and the name of the entry. -/
theorem comps_dirPrefix (sub f : Str) (hf : plainName f) :
    FS.comps (FS.dirPrefix sub ++ f) = FS.comps sub ++ [f] := by
  have hkeep : ¬ f = [] ∧ ¬ f = ['.'] := ⟨hf.1, hf.2.2.1⟩
  by_cases h1 : sub = ['/']
  · subst h1
    have : FS.dirPrefix ['/'] ++ f = [] ++ '/' :: f := rfl
    rw [this]
    unfold FS.comps
    rw [pathElems_snoc [] f [] hf.2.1, List.filter_append]
    simp [pathElems, hkeep]
  · by_cases h2 : sub = ['.']
    · subst h2
      have : FS.dirPrefix ['.'] ++ f = f := rfl
      rw [this]
      unfold FS.comps
      rw [pathElems_noslash f [] hf.2.1]
      simp [pathElems, hkeep]
    · have hd : FS.dirPrefix sub = sub ++ ['/'] := by simp [FS.dirPrefix, h1, h2]
      rw [hd, List.append_assoc, List.singleton_append]
      unfold FS.comps
      rw [pathElems_snoc sub f [] hf.2.1, List.filter_append]
      simp [hkeep]

theorem startOf_dirPrefix (sub f : Str) (hf : plainName f) (hsub : sub ≠ []) :
    FS.startOf ['.'] (FS.dirPrefix sub ++ f) = FS.startOf ['.'] sub := by
  by_cases h1 : sub = ['/']
  · subst h1; rfl
  · by_cases h2 : sub = ['.']
    · subst h2
      have : FS.dirPrefix ['.'] ++ f = f := rfl
      rw [this]
      unfold FS.startOf
      cases f with
      | nil => exact absurd rfl hf.1
      | cons c cs =>
        have hc : c ≠ '/' := fun h => hf.2.1 (by rw [h]; exact List.mem_cons_self _ _)
        simp [hc]
    · have hd : FS.dirPrefix sub = sub ++ ['/'] := by simp [FS.dirPrefix, h1, h2]
      rw [hd]
      unfold FS.startOf
      cases sub with
      | nil => exact absurd rfl hsub
      | cons c cs => rfl

theorem byteLen_append (a b : Str) : FS.byteLen (a ++ b) = FS.byteLen a + FS.byteLen b := by
  unfold FS.byteLen
  rw [List.map_append, List.sum_append]

theorem byteLen_dirPrefix (sub f : Str) :
    FS.byteLen sub ≤ FS.byteLen (FS.dirPrefix sub ++ f) ∨ sub = ['.'] := by
  by_cases h1 : sub = ['/']
  · left
    subst h1
    rw [byteLen_append]
    exact Nat.le_add_right _ _
  · by_cases h2 : sub = ['.']
    · exact Or.inr h2
    · left
      have hd : FS.dirPrefix sub = sub ++ ['/'] := by simp [FS.dirPrefix, h1, h2]
      rw [hd, byteLen_append, byteLen_append]
      omega

theorem nodeAt_of_lookup_dir (fs : FS) (p : Str) (h : fs.lookup p = some .dir) :
    fs.nodeAt p = some .dir := by
  unfold FS.nodeAt
  split
  · rfl
  · exact h

/-- The walk down a path with one more element at its end finds something
only if the walk down the path finds a directory, and comes to a link only if
the walk down the path comes to that link or finds the directory it lies in. -/
theorem walk_snoc (fs : FS) (f : Str) (xs : List Str) :
    ∀ cur, fs.nodeAt cur = some .dir →
      (∀ q, fs.walk cur (xs ++ [f]) = .found q →
        ∃ d, fs.walk cur xs = .found d ∧ fs.nodeAt d = some .dir)
      ∧ (∀ dir dest rest, fs.walk cur (xs ++ [f]) = .via dir dest rest →
        fs.nodeAt dir = some .dir
        ∧ ((∃ rest0, rest = rest0 ++ [f] ∧ fs.walk cur xs = .via dir dest rest0)
          ∨ (rest = [] ∧ fs.walk cur xs = .found dir))) := by
  induction xs with
  | nil =>
    intro cur hcur
    refine ⟨fun q _ => ⟨cur, rfl, hcur⟩, ?_⟩
    intro dir dest rest h
    simp only [List.nil_append, FS.walk] at h
    split at h
    · split at h
      · simp at h
      · simp at h
    · split at h
      · simp at h
      · split at h
        · simp only [Walk.via.injEq] at h
          obtain ⟨h1, _, h3⟩ := h
          rw [← h1, ← h3]
          exact ⟨hcur, Or.inr ⟨rfl, rfl⟩⟩
        · simp at h
        · simp at h
        · simp at h
  | cons x rest1 ih =>
    intro cur hcur
    simp only [List.cons_append, FS.walk]
    by_cases hx : x = ['.', '.']
    · rw [if_pos hx, if_pos hx]
      by_cases hu : fs.nodeAt (FS.up cur) = some .dir
      · rw [if_pos hu, if_pos hu]
        exact ih _ hu
      · rw [if_neg hu, if_neg hu]
        exact ⟨fun q h => by simp at h, fun dir dest rest h => by simp at h⟩
    · rw [if_neg hx, if_neg hx]
      by_cases hlen : 255 < FS.byteLen x
      · rw [if_pos hlen, if_pos hlen]
        exact ⟨fun q h => by simp at h, fun dir dest rest h => by simp at h⟩
      · rw [if_neg hlen, if_neg hlen]
        cases hl : fs.lookup (FS.dirPrefix cur ++ x) with
        | none =>
          refine ⟨fun q h => ?_, fun dir dest rest h => ?_⟩ <;> simp at h
        | some v =>
          cases v with
          | file d =>
            refine ⟨fun q h => ?_, fun dir dest rest h => ?_⟩ <;> simp at h
          | dir =>
            exact ih _ (nodeAt_of_lookup_dir fs _ hl)
          | link d =>
            refine ⟨fun q h => by simp at h, fun dir dest rest h => ?_⟩
            simp only [Walk.via.injEq] at h
            obtain ⟨h1, h2, h3⟩ := h
            rw [← h1, ← h2, ← h3]
            exact ⟨hcur, Or.inl ⟨rest1, rfl, rfl⟩⟩

theorem resolveAux_snoc (fs : FS) (f : Str) (n : Nat) :
    ∀ (cur : Str) (xs : List Str) (q : Str), fs.nodeAt cur = some .dir →
      fs.resolveAux n cur (xs ++ [f]) = .ok q →
      ∃ d, fs.resolveAux n cur xs = .ok d ∧ fs.nodeAt d = some .dir := by
  induction n with
  | zero =>
    intro cur xs q _ h
    simp [FS.resolveAux] at h
  | succ n ih =>
    intro cur xs q hcur h
    obtain ⟨hfound, hvia⟩ := walk_snoc fs f xs cur hcur
    simp only [FS.resolveAux] at h ⊢
    cases hw : fs.walk cur (xs ++ [f]) with
    | found q1 =>
      obtain ⟨d, hd1, hd2⟩ := hfound q1 hw
      rw [hd1]
      exact ⟨d, rfl, hd2⟩
    | fail err =>
      rw [hw] at h
      simp at h
    | via dir dest rest =>
      rw [hw] at h
      dsimp only at h
      obtain ⟨hdir, hcase⟩ := hvia dir dest rest hw
      rcases hcase with ⟨rest0, hrest, hxs⟩ | ⟨hrest, hxs⟩
      · rw [hxs]
        dsimp only
        rw [hrest, ← List.append_assoc] at h
        refine ih _ _ q ?_ h
        unfold FS.startOf
        split
        · rfl
        · exact hdir
      · rw [hxs]
        exact ⟨dir, rfl, hdir⟩

/-- The path of an entry of a directory leads somewhere only if `os.Stat`
succeeds on the directory and finds a directory. -/
theorem resolve_dir_of_entry (fs : FS) (sub f q : Str) (hf : plainName f) (hsub : sub ≠ [])
    (h : fs.resolve (FS.dirPrefix sub ++ f) = .ok q) :
    ∃ d, fs.resolve sub = .ok d ∧ fs.nodeAt d = some .dir := by
  unfold FS.resolve at h ⊢
  split at h
  · simp at h
  · split at h
    · simp at h
    · rename_i hlen
      rw [comps_dirPrefix sub f hf, startOf_dirPrefix sub f hf hsub] at h
      have hlen1 : ¬ 4095 < FS.byteLen sub := by
        rcases byteLen_dirPrefix sub f with hle | hdot
        · omega
        · rw [hdot]
          decide
      rw [if_neg hsub, if_neg hlen1]
      refine resolveAux_snoc fs f 41 _ _ q ?_ h
      unfold FS.startOf
      split <;> rfl

/-- C14 (as amended): on a file system of regular files, directories and
links, whenever `Add` succeeds, the file that the path of the new script leads
to holds exactly the content given, whatever it held before.  When the file
name of the new script is one plain path element (not empty, without slash,
neither `.` nor `..`) and base directory and sub-directory name are not both
empty, the path is that of the sub-directory of the direction followed by the
file name, and `Add` fails whenever `os.Stat` fails on the sub-directory, as
it does when the sub-directory does not exist, and whenever the path of the
sub-directory does not lead to a directory. -/
theorem Add_writes_file (m : Migrator) (L : TimeLib) (fs : FS) (t : Time) (act : Str)
    (mgType : MigType) (fileContent : Str)
    (hname : plainName (m.GetMigrFileName L t act))
    (hsub : m.GetMigrFullFileName mgType [] ≠ []) :
    m.GetMigrFullFileName mgType (m.GetMigrFileName L t act)
      = FS.dirPrefix (m.GetMigrFullFileName mgType []) ++ m.GetMigrFileName L t act
    ∧ (∀ fs1, m.Add L fs t act mgType fileContent = .ok fs1 →
        ∃ q, fs1.resolve (m.GetMigrFullFileName mgType (m.GetMigrFileName L t act)) = .ok q
          ∧ fs1.nodeAt q = some (.file fileContent))
    ∧ (∀ e, osStat fs (m.GetMigrFullFileName mgType []) = .error e →
        ∃ err, m.Add L fs t act mgType fileContent = .error err)
    ∧ ((∀ d, fs.resolve (m.GetMigrFullFileName mgType []) = .ok d → fs.nodeAt d ≠ some .dir) →
        ∃ err, m.Add L fs t act mgType fileContent = .error err) := by
  have hne : m.Dir ≠ [] ∨ (if mgType = MG_UP then m.UpDir else m.DownDir) ≠ [] := by
    by_contra hcon
    simp only [not_or, not_not] at hcon
    apply hsub
    unfold Migrator.GetMigrFullFileName
    dsimp only
    rw [hcon.1, hcon.2]
    rfl
  have hpath : m.GetMigrFullFileName mgType (m.GetMigrFileName L t act)
      = FS.dirPrefix (m.GetMigrFullFileName mgType []) ++ m.GetMigrFileName L t act := by
    unfold Migrator.GetMigrFullFileName
    dsimp only
    exact filepathJoin_name _ _ _ hname hne
  have hok : ∀ fs1, m.Add L fs t act mgType fileContent = .ok fs1 →
      ∃ d, fs.resolve (m.GetMigrFullFileName mgType []) = .ok d ∧ fs.nodeAt d = some .dir := by
    intro fs1 hadd
    rw [Add_eq] at hadd
    obtain ⟨q, hr, _, _⟩ := osWriteFile_ok fs fs1 _ _ hadd
    rw [hpath] at hr
    exact resolve_dir_of_entry fs _ _ q hname hsub hr
  refine ⟨hpath, ?_, ?_, ?_⟩
  · intro fs1 hadd
    rw [Add_eq] at hadd
    exact osWriteFile_after fs fs1 _ _ hadd
  · intro e he
    cases hadd : m.Add L fs t act mgType fileContent with
    | error err => exact ⟨err, rfl⟩
    | ok fs1 =>
      obtain ⟨d, hd1, hd2⟩ := hok fs1 hadd
      unfold osStat at he
      rw [hd1] at he
      dsimp only at he
      rw [hd2] at he
      simp at he
  · intro hnd
    cases hadd : m.Add L fs t act mgType fileContent with
    | error err => exact ⟨err, rfl⟩
    | ok fs1 =>
      obtain ⟨d, hd1, hd2⟩ := hok fs1 hadd
      exact absurd hd2 (hnd d hd1)

/-- C14, witness: with the defaults, `Add` of 2024-01-01 00:00:00 and `act1` in
direction up writes `/db/up/20240101000000_act1.sql`, which then holds the
content given; without the sub-directory `up`, it fails. -/
theorem Add_writes_file_witness :
    dbMigrator.GetMigrFullFileName MG_UP
        (dbMigrator.GetMigrFileName goTime (dateUTC 2024 1 1 0 0 0 0) "act1".toList)
      = "/db/up/20240101000000_act1.sql".toList
    ∧ dbMigrator.Add goTime (testFS none) (dateUTC 2024 1 1 0 0 0 0) "act1".toList MG_UP
          "create table t();".toList
        = .ok ⟨("/db/up/20240101000000_act1.sql".toList, Node.file "create table t();".toList)
            :: (testFS none).nodes⟩
    ∧ (∃ q, FS.resolve ⟨("/db/up/20240101000000_act1.sql".toList,
            Node.file "create table t();".toList) :: (testFS none).nodes⟩
          (dbMigrator.GetMigrFullFileName MG_UP
            (dbMigrator.GetMigrFileName goTime (dateUTC 2024 1 1 0 0 0 0) "act1".toList))
          = .ok q
        ∧ FS.nodeAt ⟨("/db/up/20240101000000_act1.sql".toList,
            Node.file "create table t();".toList) :: (testFS none).nodes⟩ q
          = some (.file "create table t();".toList))
    ∧ osStat noUpFS (dbMigrator.GetMigrFullFileName MG_UP []) = .error Error.notExist
    ∧ ∃ err, dbMigrator.Add goTime noUpFS (dateUTC 2024 1 1 0 0 0 0) "act1".toList MG_UP
          "create table t();".toList = .error err :=
  have H := Add_writes_file dbMigrator goTime (testFS none) (dateUTC 2024 1 1 0 0 0 0)
    "act1".toList MG_UP "create table t();".toList (by decide) (by decide)
  have K := Add_writes_file dbMigrator goTime noUpFS (dateUTC 2024 1 1 0 0 0 0)
    "act1".toList MG_UP "create table t();".toList (by decide) (by decide)
  ⟨by decide, by decide, H.2.1 _ (by decide), by decide, K.2.2.1 Error.notExist (by decide)⟩

set_option maxRecDepth 100000 in
/-- C14, counterexample: with the defaults and the sub-directory `up` in place,
`Add` of the label `a/b` fails, and so does `Add` of a label of 300 characters,
whose file name is longer than a name may be; without the sub-directory `up`,
`Add` of the label `/../../x` succeeds, writing `/db/x.sql`; with `up` in place
and a directory standing at the path of the script, `Add` fails; and with an
empty base directory and an empty sub-directory name, `Add` writes into the
current directory although the path of the sub-directory, the empty path,
names nothing. -/
theorem Add_depends_on_label :
    (testFS none).lookup (dbMigrator.GetMigrFullFileName MG_UP []) = some Node.dir
    ∧ osStat (testFS none) (dbMigrator.GetMigrFullFileName MG_UP []) = .ok ()
    ∧ dbMigrator.Add goTime (testFS none) (dateUTC 2024 1 1 0 0 0 0) "a/b".toList MG_UP
        "create table t();".toList = .error Error.notExist
    ∧ plainName (dbMigrator.GetMigrFileName goTime (dateUTC 2024 1 1 0 0 0 0) longLabel)
    ∧ dbMigrator.Add goTime (testFS none) (dateUTC 2024 1 1 0 0 0 0) longLabel MG_UP
        "create table t();".toList = .error Error.ioError
    ∧ noUpFS.lookup (dbMigrator.GetMigrFullFileName MG_UP []) = none
    ∧ dbMigrator.GetMigrFullFileName MG_UP
        (dbMigrator.GetMigrFileName goTime (dateUTC 2024 1 1 0 0 0 0) "/../../x".toList)
      = "/db/x.sql".toList
    ∧ dbMigrator.Add goTime noUpFS (dateUTC 2024 1 1 0 0 0 0) "/../../x".toList MG_UP
        "create table t();".toList
      = .ok ⟨("/db/x.sql".toList, Node.file "create table t();".toList) :: noUpFS.nodes⟩
    ∧ dirAtScriptFS.lookup (dbMigrator.GetMigrFullFileName MG_UP []) = some Node.dir
    ∧ dbMigrator.Add goTime dirAtScriptFS (dateUTC 2024 1 1 0 0 0 0) "act1".toList MG_UP
        "create table t();".toList = .error Error.ioError
    ∧ cwdMigrator.GetMigrFullFileName MG_UP [] = []
    ∧ cwdFS.lookup (cwdMigrator.GetMigrFullFileName MG_UP []) = none
    ∧ cwdMigrator.Add goTime cwdFS (dateUTC 2024 1 1 0 0 0 0) "act1".toList MG_UP
        "create table t();".toList
      = .ok ⟨("20240101000000_act1.sql".toList, Node.file "create table t();".toList)
          :: cwdFS.nodes⟩ := by
  decide

/-! ## Forward traversal -/

theorem lookup_mem (nodes : List (Str × Node)) (q : Str) (v : Node)
    (h : FS.lookup ⟨nodes⟩ q = some v) : (q, v) ∈ nodes := by
  induction nodes with
  | nil => simp [FS.lookup, List.lookup] at h
  | cons a rest ih =>
    obtain ⟨p, n⟩ := a
    rw [lookup_cons] at h
    by_cases hq : q = p
    · rw [if_pos hq] at h
      simp only [Option.some.injEq] at h
      rw [hq, h]
      exact List.mem_cons_self _ _
    · rw [if_neg hq] at h
      exact List.mem_cons_of_mem _ (ih h)

/-- Replacing the content of an existing file changes no directory listing. -/
theorem osReadDir_overwrite (fs : FS) (p s old d : Str)
    (hp : fs.nodeAt p = some (.file old)) :
    osReadDir ⟨(p, .file s) :: fs.nodes⟩ d = osReadDir fs d := by
  have hk : fs.nodeAt p = none ∨ ∃ old, fs.nodeAt p = some (.file old) := Or.inr ⟨old, hp⟩
  have hlp : fs.lookup p = some (.file old) := by
    rw [(nodeAt_plain fs p hk).2]
    exact hp
  have hres := resolve_overwrite fs p s old d hp
  have hnode := nodeAt_write fs p s
  obtain ⟨nodes⟩ := fs
  have hflag : ∀ q, decide (FS.lookup ⟨(p, .file s) :: nodes⟩ q = some Node.dir)
      = decide (FS.lookup ⟨nodes⟩ q = some Node.dir) := by
    intro q
    rw [lookup_cons]
    by_cases hq : q = p
    · rw [if_pos hq, hq, hlp]
      simp
    · rw [if_neg hq]
  have hnames : ∀ r, (((p, Node.file s) :: nodes).filterMap
        (fun kv => FS.childName r kv.1)).dedup
      = (nodes.filterMap (fun kv => FS.childName r kv.1)).dedup := by
    intro r
    rw [List.filterMap_cons]
    cases hc : FS.childName r p with
    | none => simp [hc]
    | some n =>
      simp only [hc]
      apply List.dedup_cons_of_mem
      rw [List.mem_filterMap]
      exact ⟨(p, .file old), lookup_mem nodes p _ hlp, hc⟩
  unfold osReadDir
  rw [hres]
  cases FS.resolve ⟨nodes⟩ d with
  | error err => rfl
  | ok q =>
    dsimp only
    rw [hnode q hk]
    by_cases hd : q = p
    · rw [if_pos hd, hd, hp]
    · rw [if_neg hd]
      cases hld : FS.nodeAt ⟨nodes⟩ q with
      | none => rfl
      | some n =>
        cases n with
        | file _ => rfl
        | link _ => rfl
        | dir =>
          dsimp only
          rw [hnames]
          simp only [hflag]

theorem SetLastMigrFileName_eq (m : Migrator) (fs : FS) (s : Str) :
    m.SetLastMigrFileName fs s = osWriteFile fs (filepathJoin [m.Dir, m.PosFileName]) s := by
  unfold Migrator.SetLastMigrFileName
  cases osWriteFile fs (filepathJoin [m.Dir, m.PosFileName]) s <;> rfl

/-- With distinct positions the sorted kept records are strictly ascending. -/
theorem sorted_kept_strict (m : Migrator) (L : TimeLib) (fs : FS) (dir : Str)
    (entries : List DirEntry) (P : Time) (mgType : MigType)
    (hdir : osReadDir fs dir = .ok entries) (hdistinct : distinctPos m L entries) :
    (sortSort MigrFileList.Less (kept m L P mgType entries)).Pairwise
      (fun a b => a.Pos.Before b.Pos = true) := by
  have hnames := osReadDir_names_nodup fs dir entries hdir
  have hs := sortSort_pairwise MigrFileList.Less less_asymm less_negtrans
    (kept m L P mgType entries)
  have hne := sortSort_pos_ne MigrFileList.Less _
    (kept_pos_ne m L P mgType entries hnames hdistinct)
  exact (hs.and hne).imp (fun hab => time_lt_of_le_of_ne _ _ hab.1 hab.2)

theorem kept_after (m : Migrator) (L : TimeLib) (entries : List DirEntry) (P Q : Time)
    (hP : P ≠ Time.zero) (hQ : Q ≠ Time.zero) (hPQ : P.Before Q = true) :
    (kept m L P MG_UP entries).filter (fun f => Q.Before f.Pos) = kept m L Q MG_UP entries := by
  unfold kept
  rw [List.filter_filter]
  apply List.filter_congr
  intro f _
  rw [skipFile_up, skipFile_up, Bool.eq_iff_iff]
  simp only [Time.Before, Time.Equal, decide_eq_true_eq] at hPQ ⊢
  simp only [hP, hQ, ne_eq, not_false_eq_true, decide_True, Bool.true_and, Bool.and_eq_true,
    Bool.not_eq_true', Bool.or_eq_false_iff, decide_eq_false_iff_not, decide_eq_true_eq]
  omega

theorem marker_roundtrip_aux (m : Migrator) (L : TimeLib) (fs fs1 : FS) (s : Str)
    (hset : m.SetLastMigrFileName fs s = .ok fs1) :
    m.GetLastMigrFileName fs1 = .ok s
    ∧ ∀ r, NewMigrFile L s m.DateFormat m.FilePartSep = .ok r →
        m.GetLastMigrFile L fs1 = .ok r := by
  rw [SetLastMigrFileName_eq] at hset
  obtain ⟨q, hq1, hq2⟩ := osWriteFile_after fs fs1 _ s hset
  have hget : m.GetLastMigrFileName fs1 = .ok s :=
    GetLastMigrFileName_of_lookup m fs1 q s hq1 hq2
  refine ⟨hget, fun r hr => ?_⟩
  unfold Migrator.GetLastMigrFile
  rw [hget]
  dsimp only
  rw [hr]

theorem filter_after_head (h : MigrFile) (t : List MigrFile)
    (hs : (h :: t).Pairwise (fun a b => a.Pos.Before b.Pos = true)) :
    (h :: t).filter (fun f => h.Pos.Before f.Pos) = t := by
  have hh : h.Pos.Before h.Pos = false := by simp [Time.Before]
  rw [List.filter_cons, hh]
  simp only [Bool.false_eq_true, if_false]
  rw [List.filter_eq_self]
  exact (List.pairwise_cons.mp hs).1

/-- After the step that returned the head of the sorted kept records, the
sorted kept records are the tail. -/
theorem sorted_kept_tail (m : Migrator) (L : TimeLib) (entries : List DirEntry) (P : Time)
    (h : MigrFile) (t : List MigrFile) (hP : P ≠ Time.zero) (hh0 : h.Pos ≠ Time.zero)
    (hs : sortSort MigrFileList.Less (kept m L P MG_UP entries) = h :: t)
    (hstrictP : (h :: t).Pairwise (fun a b => a.Pos.Before b.Pos = true))
    (hstrictH : (sortSort MigrFileList.Less (kept m L h.Pos MG_UP entries)).Pairwise
      (fun a b => a.Pos.Before b.Pos = true)) :
    sortSort MigrFileList.Less (kept m L h.Pos MG_UP entries) = t := by
  have hperm : (h :: t).Perm (kept m L P MG_UP entries) := by
    rw [← hs]
    exact sortSort_perm _ _
  have hmem : h ∈ kept m L P MG_UP entries := hperm.mem_iff.mp (List.mem_cons_self _ _)
  have hPh : P.Before h.Pos = true := ((mem_kept_up m L P hP entries h).mp hmem).2
  have h1 : t.Perm (kept m L h.Pos MG_UP entries) := by
    have := hperm.filter (fun f => h.Pos.Before f.Pos)
    rw [filter_after_head h t hstrictP, kept_after m L entries P h.Pos hP hh0 hPh] at this
    exact this
  have h2 : (sortSort MigrFileList.Less (kept m L h.Pos MG_UP entries)).Perm t :=
    (sortSort_perm _ _).trans h1.symm
  haveI : IsAntisymm MigrFile (fun a b => a.Pos.Before b.Pos = true) :=
    ⟨fun a b hab hba => by
      simp only [Time.Before, decide_eq_true_eq] at hab hba
      omega⟩
  exact List.eq_of_perm_of_sorted h2 hstrictH (List.pairwise_cons.mp hstrictP).2

theorem traverseUp_visits (m : Migrator) (L : TimeLib) (entries : List DirEntry)
    (hparse : allParse m L entries) (hdistinct : distinctPos m L entries)
    (n : Nat) :
    ∀ (fs : FS) (mg : MigrFile),
      m.GetLastMigrFile L fs = .ok mg →
      mg.Pos ≠ Time.zero →
      osReadDir fs (m.GetMigrFullFileName MG_UP []) = .ok entries →
      (∀ r ∈ records m L entries, mg.Pos.Before r.Pos = true → r.Pos ≠ Time.zero) →
      (sortSort MigrFileList.Less (kept m L mg.Pos MG_UP entries)).length < n →
      traverseUp m L n fs
        = (sortSort MigrFileList.Less (kept m L mg.Pos MG_UP entries),
            some Error.ErNoMigration) := by
  induction n with
  | zero => intro fs mg _ _ _ _ hlen; exact absurd hlen (Nat.not_lt_zero _)
  | succ n ih =>
    intro fs mg hmarker hpivot hdir hnozero hlen
    have hl := NewFileList_up m L fs mg.Pos entries hdir hparse
    have hstrict := sorted_kept_strict m L fs _ entries mg.Pos MG_UP hdir hdistinct
    cases hs : sortSort MigrFileList.Less (kept m L mg.Pos MG_UP entries) with
    | nil =>
      rw [hs] at hl
      have hup : m.Up L fs = .error Error.ErNoMigration :=
        NextMigration_nil m L fs MG_UP mg hmarker hl
      simp [traverseUp, upStep, hup]
    | cons h t =>
      rw [hs] at hl hstrict hlen
      have hup : m.Up L fs = .ok h := NextMigration_cons m L fs MG_UP mg h t hmarker hl
      have hmemk : h ∈ kept m L mg.Pos MG_UP entries := by
        have := (sortSort_perm MigrFileList.Less (kept m L mg.Pos MG_UP entries)).mem_iff.mp
          (by rw [hs]; exact List.mem_cons_self _ _)
        exact this
      have hmem := (mem_kept_up m L mg.Pos hpivot entries h).mp hmemk
      have hh0 : h.Pos ≠ Time.zero := hnozero h hmem.1 hmem.2
      -- the position file before the step
      obtain ⟨old, q, hq, hold⟩ : ∃ old q,
          fs.resolve (filepathJoin [m.Dir, m.PosFileName]) = .ok q
          ∧ fs.nodeAt q = some (.file old) := by
        unfold Migrator.GetLastMigrFile at hmarker
        cases hn : m.GetLastMigrFileName fs with
        | error err => rw [hn] at hmarker; simp at hmarker
        | ok fName =>
          obtain ⟨q, h1, h2⟩ := lookup_of_GetLastMigrFileName m fs fName hn
          exact ⟨fName, q, h1, h2⟩
      have hk : fs.nodeAt q = none ∨ ∃ old, fs.nodeAt q = some (.file old) := Or.inr ⟨old, hold⟩
      have hset : m.SetLastMigrFileName fs h.Name = .ok ⟨(q, .file h.Name) :: fs.nodes⟩ := by
        rw [SetLastMigrFileName_eq]
        exact osWriteFile_succeeds fs _ _ q old hq hold
      -- the state after the step
      have hrec : NewMigrFile L h.Name m.DateFormat m.FilePartSep = .ok h := by
        obtain ⟨e, _, _, hn⟩ := (mem_records m L entries h).mp hmem.1
        have := NewMigrFile_name L e.name _ _ h hn
        rw [this]
        exact hn
      have hmarker1 : m.GetLastMigrFile L ⟨(q, .file h.Name) :: fs.nodes⟩ = .ok h :=
        ((marker_roundtrip_aux m L fs _ h.Name hset).2 h hrec)
      have hdir1 : osReadDir ⟨(q, .file h.Name) :: fs.nodes⟩
          (m.GetMigrFullFileName MG_UP []) = .ok entries := by
        rw [osReadDir_overwrite fs _ _ old _ hold]
        exact hdir
      have hnozero1 : ∀ r ∈ records m L entries, h.Pos.Before r.Pos = true →
          r.Pos ≠ Time.zero := by
        intro r hr hb
        apply hnozero r hr
        have h1 := hmem.2
        simp only [Time.Before, decide_eq_true_eq] at h1 hb ⊢
        omega
      have htail := sorted_kept_tail m L entries mg.Pos h t hpivot hh0 hs hstrict
        (sorted_kept_strict m L fs _ entries h.Pos MG_UP hdir hdistinct)
      have hrest := ih _ h hmarker1 hh0 hdir1 hnozero1
        (by rw [htail]; simpa using hlen)
      rw [htail] at hrest
      simp [traverseUp, upStep, hup, hset, hrest]

/-- C17 (as amended): for an `up` directory whose regular-file names parse to
pairwise distinct positions and a marker whose pivot `P` is not the zero time,
when no record strictly after `P` is dated at the zero time and the position
file can be written (its path is not empty and its directory exists),
repeating the step `r := Up(); SetLastMigrFileName(r.Name)` returns exactly the
records strictly after `P`, each once and in strictly ascending order of
position, and the call of `Up` after the last of them fails with
`ErNoMigration`. -/
theorem forward_traversal (m : Migrator) (L : TimeLib) (fs : FS) (mg : MigrFile)
    (entries : List DirEntry)
    (hmarker : m.GetLastMigrFile L fs = .ok mg)
    (hpivot : mg.Pos ≠ Time.zero)
    (hdir : osReadDir fs (m.GetMigrFullFileName MG_UP []) = .ok entries)
    (hparse : allParse m L entries)
    (hdistinct : distinctPos m L entries)
    (hnozero : ∀ r ∈ records m L entries, mg.Pos.Before r.Pos = true → r.Pos ≠ Time.zero)
    (hpath : filepathJoin [m.Dir, m.PosFileName] ≠ [])
    (hposdir : fs.lookup (FS.parent (filepathJoin [m.Dir, m.PosFileName])) = some .dir) :
    ∃ visited,
      (∀ n, visited.length < n →
        traverseUp m L n fs = (visited, some Error.ErNoMigration))
      ∧ visited.Pairwise (fun a b => a.Pos.Before b.Pos = true)
      ∧ visited.Nodup
      ∧ ∀ r, r ∈ visited ↔ (r ∈ records m L entries ∧ mg.Pos.Before r.Pos = true) := by
  have hstrict := sorted_kept_strict m L fs _ entries mg.Pos MG_UP hdir hdistinct
  refine ⟨sortSort MigrFileList.Less (kept m L mg.Pos MG_UP entries), ?_, hstrict, ?_, ?_⟩
  · intro n hn
    exact traverseUp_visits m L entries hparse hdistinct n fs mg hmarker hpivot hdir
      hnozero hn
  · refine hstrict.imp ?_
    intro a b hab heq
    rw [heq] at hab
    simp [Time.Before] at hab
  · intro r
    rw [(sortSort_perm MigrFileList.Less _).mem_iff]
    exact mem_kept_up m L mg.Pos hpivot entries r

/-- C17, witness: the directory of `TestUp` with the marker at `act1`: three
steps return `act2`, `act3` and `act4`, and the fourth `Up` fails with
`ErNoMigration`. -/
theorem forward_traversal_witness :
    traverseUp dbMigrator goTime 4 (testFS (some act1))
      = ([recAct2, recAct3, recAct4], some Error.ErNoMigration)
    ∧ ∃ visited,
      (∀ n, visited.length < n →
        traverseUp dbMigrator goTime n (testFS (some act1))
          = (visited, some Error.ErNoMigration))
      ∧ visited.Pairwise (fun a b => a.Pos.Before b.Pos = true)
      ∧ visited.Nodup
      ∧ ∀ r, r ∈ visited
          ↔ (r ∈ records dbMigrator goTime testEntries ∧ recAct1.Pos.Before r.Pos = true) :=
  ⟨by decide,
   forward_traversal dbMigrator goTime (testFS (some act1)) recAct1 testEntries
     (by decide) (by decide) (by decide) (by decide) (by decide) (by decide) (by decide)
     (by decide)⟩

/-- C17, counterexample: the marker is dated in the year 0, so its pivot is not
the zero time, and the three names of the `up` directory parse to distinct
positions after the pivot; the traversal returns the script of the year 0, then
the script dated at the zero time, then the script of the year 0 again, and so
on: after six steps it has not reached the third script and has not ended. -/
theorem forward_traversal_cycles :
    dbMigrator.GetLastMigrFile goTime yearZeroFS
      = .ok ⟨"00000101000000_m.sql".toList, dateUTC 0 1 1 0 0 0 0, "m".toList⟩
    ∧ dateUTC 0 1 1 0 0 0 0 ≠ Time.zero
    ∧ osReadDir yearZeroFS (dbMigrator.GetMigrFullFileName MG_UP [])
      = .ok [⟨yearZeroA, false⟩, ⟨initName, false⟩, ⟨act1, false⟩]
    ∧ allParse dbMigrator goTime [⟨yearZeroA, false⟩, ⟨initName, false⟩, ⟨act1, false⟩]
    ∧ distinctPos dbMigrator goTime [⟨yearZeroA, false⟩, ⟨initName, false⟩, ⟨act1, false⟩]
    ∧ records dbMigrator goTime [⟨yearZeroA, false⟩, ⟨initName, false⟩, ⟨act1, false⟩]
      = [recYearZeroA, recInit, recAct1]
    ∧ (dateUTC 0 1 1 0 0 0 0).Before recYearZeroA.Pos = true
    ∧ traverseUp dbMigrator goTime 6 yearZeroFS
      = ([recYearZeroA, recInit, recYearZeroA, recInit, recYearZeroA, recInit], none) := by
  decide

/-! ## The default configuration: the paths of scripts and position file differ -/

theorem pathElems_suffix (s cur w : Str) (hw : '/' ∉ w) :
    ∃ init e0, pathElems (s ++ w) cur = init ++ [e0 ++ w] := by
  induction s generalizing cur with
  | nil => exact ⟨[], cur.reverse, by simp [pathElems_noslash w cur hw]⟩
  | cons c cs ih =>
    by_cases hc : c = '/'
    · obtain ⟨init, e0, h⟩ := ih []
      exact ⟨cur.reverse :: init, e0, by rw [List.cons_append, pathElems, if_pos hc, h]; rfl⟩
    · obtain ⟨init, e0, h⟩ := ih (c :: cur)
      exact ⟨init, e0, by rw [List.cons_append, pathElems, if_neg hc, h]⟩

/-- A path that ends in a dot and three more characters, none of them a slash,
still ends in them when cleaned. -/
theorem filepathClean_suffix (x : Str) (a b c : Char)
    (ha : a ≠ '/') (hb : b ≠ '/') (hc : c ≠ '/') :
    ∃ pre, filepathClean (x ++ ['.', a, b, c]) = pre ++ ['.', a, b, c] := by
  have hw : '/' ∉ ['.', a, b, c] := by
    simp [ha.symm, hb.symm, hc.symm]
  obtain ⟨init, e0, hel⟩ := pathElems_suffix x [] ['.', a, b, c] hw
  have hx : x ++ ['.', a, b, c] ≠ [] := by simp
  have hplain : plainName (e0 ++ ['.', a, b, c]) := by
    refine ⟨by simp, ?_, ?_, ?_⟩
    · apply pathElems_noslash_mem (x ++ ['.', a, b, c]) [] (by simp)
      rw [hel]
      simp
    · intro h0
      have := congrArg List.length h0
      simp at this
    · intro h0
      have := congrArg List.length h0
      simp at this
  rw [filepathClean_eq _ hx, hel]
  simp only [List.foldl_append, List.foldl_cons, List.foldl_nil,
    cleanStep_plain _ _ _ hplain, List.reverse_cons, intercalate_snoc]
  generalize List.foldl (cleanStep (decide ((x ++ ['.', a, b, c]).head? = some '/'))) [] init
    = S
  generalize (if (x ++ ['.', a, b, c]).head? = some '/' then ['/'] else []) = root
  by_cases hS : S.reverse = []
  · rw [if_pos hS]
    rw [if_neg (by simp)]
    exact ⟨root ++ e0, by simp⟩
  · rw [if_neg hS]
    rw [if_neg (by simp)]
    exact ⟨root ++ (List.intercalate ['/'] S.reverse ++ ['/'] ++ e0), by simp⟩

theorem filepathJoin_suffix (elems : List Str) (x : Str) (a b c : Char)
    (ha : a ≠ '/') (hb : b ≠ '/') (hc : c ≠ '/') :
    ∃ pre, filepathJoin (elems ++ [x ++ ['.', a, b, c]]) = pre ++ ['.', a, b, c] := by
  unfold filepathJoin
  have hint : ∀ es : List Str, ∃ y, List.intercalate ['/'] (es ++ [x ++ ['.', a, b, c]])
      = y ++ ['.', a, b, c] := by
    intro es
    rw [intercalate_snoc]
    split
    · exact ⟨x, rfl⟩
    · exact ⟨List.intercalate ['/'] es ++ ['/'] ++ x, by simp⟩
  have hdrop : ∃ es, (elems ++ [x ++ ['.', a, b, c]]).dropWhile (fun e => decide (e = []))
      = es ++ [x ++ ['.', a, b, c]] := by
    induction elems with
    | nil => exact ⟨[], by simp [List.dropWhile]⟩
    | cons e es ih =>
      by_cases he : e = []
      · obtain ⟨es1, h⟩ := ih
        exact ⟨es1, by rw [List.cons_append, List.dropWhile_cons, if_pos (by simpa using he), h]⟩
      · exact ⟨e :: es, by
          rw [List.cons_append, List.dropWhile_cons, if_neg (by simpa using he)]⟩
  obtain ⟨es, hes⟩ := hdrop
  rw [hes]
  obtain ⟨y, hy⟩ := hint es
  cases hcase : es ++ [x ++ ['.', a, b, c]] with
  | nil => simp at hcase
  | cons e0 rest =>
    dsimp only
    rw [← hcase, hy]
    exact filepathClean_suffix y a b c ha hb hc

/-- With the defaults of `NewMigrator`, whatever the base directory, the time,
the label and the direction, the path `Add` writes to is not the path of the
position file: the path of a script ends in `.sql`, the path of the position
file in `.pos`. -/
theorem default_paths_differ (dir : Str) (L : TimeLib) (t : Time) (act : Str)
    (mgType : MigType) :
    (NewMigrator dir).GetMigrFullFileName mgType ((NewMigrator dir).GetMigrFileName L t act)
      ≠ filepathJoin [(NewMigrator dir).Dir, (NewMigrator dir).PosFileName] := by
  obtain ⟨p1, h1⟩ := filepathJoin_suffix
    [dir, if mgType = MG_UP then DEF_UP_DIR else DEF_DOWN_DIR]
    (L.Format t DEF_FILE_DATE_FORMAT ++ DEF_FILE_PART_SEP ++ act) 's' 'q' 'l'
    (by decide) (by decide) (by decide)
  obtain ⟨p2, h2⟩ := filepathJoin_suffix [dir] "last_mig".toList 'p' 'o' 's'
    (by decide) (by decide) (by decide)
  have e1 : (NewMigrator dir).GetMigrFullFileName mgType
      ((NewMigrator dir).GetMigrFileName L t act) = p1 ++ ['.', 's', 'q', 'l'] := h1
  have e2 : filepathJoin [(NewMigrator dir).Dir, (NewMigrator dir).PosFileName]
      = p2 ++ ['.', 'p', 'o', 's'] := h2
  rw [e1, e2]
  intro h
  have := congrArg List.getLast? h
  simp at this

end Sqlmigr
